import Mathlib

/-!
Shallow embedding of the bounded-concurrency upload pipeline and the
optimistic client-state stores of the image-hosting web application.

Sources embedded here:
* src/client/src/services/uploadService.js — createThrottle, uploadSingleFile,
  runWithConcurrency, uploadFiles, validateFile;
* the zustand image store (src/unnamed/part_000, first document) —
  runWithConcurrencyLimit, deleteImages;
* the zustand favorite store (src/unnamed/part_000, second document) —
  addFavorite, removeFavorite, addFavorites, removeFavorites.

Modelling conventions:
* JS cooperative single-threaded concurrency is modelled as a small-step
  state machine; a schedule (list of actions) picks which worker or timer
  runs between suspension points.  Await boundaries are exactly the points
  where the machine yields.
* Machine integers and JS floats that only ever hold exact small values are
  modelled as Nat / Int / Rat.  The JS NaN produced by 0 / 0 is modelled by
  an Option type (none = NaN).
* Fallible remote calls are parameters of type Except / a Remote outcome
  type, so one Lean definition covers every behaviour of the collaborator.
-/

namespace ImageHost
/-- JS falsiness of an optional string: undefined / null / empty string. -/
def falsyS : Option String → Bool
  | none => true
  | some s => s = ""

/-- JS expression a OR b (short-circuit on falsy a) for an optional string a
and a truthy fallback b. -/
def jsOrS (a : Option String) (b : String) : String :=
  match a with
  | none => b
  | some s => if s = "" then b else s

/-! ### Bounded worker pool: runWithConcurrencyLimit

The image store (src/unnamed/part_000) limits concurrent requests with

  const runWithConcurrencyLimit = async (tasks, limit = 5) => \x7b
    const results = [];
    let index = 0;
    const runTask = async () => \x7b
      while (index < tasks.length) \x7b
        const currentIndex = index++;
        try \x7b results[currentIndex] = await tasks[currentIndex](); \x7d
        catch (error) \x7b results[currentIndex] = \x7b error: error.message \x7d; \x7d
      \x7d
    \x7d;
    const workers = Array(Math.min(limit, tasks.length)).fill(null).map(() => runTask());
    await Promise.all(workers);
    return results;
  \x7d;

A task is modelled by the outcome its promise settles to: Except String α
(error carries error.message).  A worker is idle (about to test the shared
cursor), running a claimed index (suspended at the await), or done (its
while loop exited).  The sparse JS results array is a list of Option slots
pre-sized to tasks.length; an unassigned slot reads as undefined (none). -/

/-- Slot value stored in the results array: the awaited task value, or the
object carrying the error message built in the catch branch. -/
inductive PoolRes (α : Type) where
  | val : α → PoolRes α
  | errObj : String → PoolRes α
deriving DecidableEq

/-- The try / catch around the await: a settled task is stored as its value,
a rejected task as the error-message object.  No rejection escapes runTask. -/
def capture {α : Type} : Except String α → PoolRes α
  | .ok a => .val a
  | .error m => .errObj m

/-- Status of one worker (one runTask invocation) of the pool. -/
inductive WStat where
  | idle
  | running (i : Nat)
  | done
deriving DecidableEq

/-- State of one runWithConcurrencyLimit invocation between suspension
points: the shared cursor, the results array, and each worker's status. -/
structure PoolSt (α : Type) where
  cursor : Nat
  results : List (Option (PoolRes α))
  workers : List WStat
deriving DecidableEq

/-- Initial pool state: cursor 0, empty results array (read as undefined at
every index), and min(limit, tasks.length) idle workers. -/
def initPool (α : Type) (n limit : Nat) : PoolSt α :=
  ⟨0, List.replicate n none, List.replicate (min limit n) .idle⟩

/-- One scheduler step: let worker w run until its next suspension point.
An idle worker either claims the next unclaimed index (cursor < length) or
exits its loop; a running worker has its awaited task settle, and the
try / catch stores the captured outcome in the claimed slot.  The step is
disabled (none) for an absent or done worker. -/
def poolStep {α : Type} (tasks : List (Except String α)) (s : PoolSt α)
    (w : Nat) : Option (PoolSt α) :=
  match s.workers.get? w with
  | none => none
  | some .done => none
  | some .idle =>
    if s.cursor < tasks.length then
      some { s with cursor := s.cursor + 1,
                    workers := s.workers.set w (.running s.cursor) }
    else
      some { s with workers := s.workers.set w .done }
  | some (.running i) =>
    some { s with
      results := s.results.set i (some (capture (tasks.getD i (.error "")))),
      workers := s.workers.set w .idle }

/-- Run the pool under a schedule: a list of worker choices, one per step.
Returns none when the schedule picks a disabled step. -/
def runPool {α : Type} (tasks : List (Except String α)) (limit : Nat)
    (acts : List Nat) : Option (PoolSt α) :=
  acts.foldlM (poolStep tasks) (initPool α tasks.length limit)

/-! ### Retrying single-item uploader: uploadSingleFile

uploadService.js uploads one file with a quick size check, then up to
retries network attempts in a for loop; a non-final failed attempt waits
1000 * (attempt + 1) ms before the next attempt (attempt is zero-indexed);
the final failed attempt returns a failure object with
error.response?.data?.error OR error.message OR a generic message.  A
resolved response whose (first) data element is missing a truthy src field
throws a format error inside the try, which the same catch handles. -/

/-- The file argument: the fields the uploader reads. -/
structure JFile where
  name : String
  size : Nat
  type : String
deriving DecidableEq

/-- The effective element of response.data inspected by the uploader
(response.data itself, or its first element when it is an array); src is
none when the field is absent or empty (falsy). -/
structure UploadData where
  src : Option String
deriving DecidableEq

/-- How one network attempt (one await of upload(...)) settles: the promise
resolves with an effective data element (none when absent / falsy), or
rejects with an error carrying an optional remote payload message
(error.response?.data?.error, none when absent or falsy) and error.message. -/
inductive AttemptOutcome where
  | resolved (result : Option UploadData)
  | rejected (payload : Option String) (message : String)
deriving DecidableEq

/-- The normalized result object built by uploadSingleFile.  The
uploadTime timestamp is not modelled (no claim mentions it). -/
structure UpRes where
  success : Bool
  filename : String
  size : Nat
  type : String
  dataSrc : Option String
  error : Option String
deriving DecidableEq

/-- The 10 MB limit hardcoded in uploadSingleFile and validateFile. -/
def maxSizeDefault : Nat := 10 * 1024 * 1024

/-- Size-violation message: the template literal interpolating
(maxSize / 1024 / 1024).toFixed(0); exact for the multiples of 1 MB used
in this code base (Nat division stands in for float division + toFixed). -/
def sizeErrorTemplate (maxSize : Nat) : String :=
  "文件大小不能超过 " ++ toString (maxSize / 1024 / 1024) ++ "MB"

/-- Message of the error thrown when the resolved response has no src. -/
def formatErrorMsg : String := "上传失败：服务器返回数据格式错误"

/-- Generic fallback message of the uploader. -/
def genericUploadError : String := "上传失败"

/-- Whether an attempt outcome passes the (!result || !result.src) check:
some src exactly when the attempt resolved with a truthy src. -/
def attemptOk : AttemptOutcome → Option String
  | .resolved (some d) => if falsyS d.src then none else d.src
  | .resolved none => none
  | .rejected _ _ => none

/-- The error string computed in the catch branch for a failed attempt:
error.response?.data?.error OR error.message OR the generic message; for
the thrown format error there is no response payload and error.message is
the format message. -/
def attemptCatchError : AttemptOutcome → String
  | .resolved _ => formatErrorMsg
  | .rejected payload message => jsOrS payload (jsOrS (some message) genericUploadError)

/-- Success result object returned by uploadSingleFile. -/
def okRes (f : JFile) (src : String) : UpRes :=
  ⟨true, f.name, f.size, f.type, some src, none⟩

/-- Failure result object returned by uploadSingleFile. -/
def failRes (f : JFile) (e : String) : UpRes :=
  ⟨false, f.name, f.size, f.type, none, some e⟩

/-- Observable trace of one uploadSingleFile call: the settled value (none
models the undefined returned when the for loop runs zero iterations), the
backoff delays awaited in order, and how many network attempts were made. -/
structure UploadTrace where
  result : Option UpRes
  delays : List Nat
  attemptsMade : Nat
deriving DecidableEq

/-- The retry for loop of uploadSingleFile, starting at the zero-indexed
attempt number with the given number of iterations remaining
(remaining = retries - attempt).  The last allowed attempt is the one with
no further iteration remaining (attempt === retries - 1). -/
def uploadLoop (f : JFile) (attempts : Nat → AttemptOutcome) :
    Nat → Nat → UploadTrace
  | _, 0 => ⟨none, [], 0⟩
  | attempt, remaining + 1 =>
    match attemptOk (attempts attempt) with
    | some src => ⟨some (okRes f src), [], 1⟩
    | none =>
      if remaining = 0 then
        ⟨some (failRes f (attemptCatchError (attempts attempt))), [], 1⟩
      else
        let rest := uploadLoop f attempts (attempt + 1) remaining
        ⟨rest.result, 1000 * (attempt + 1) :: rest.delays, rest.attemptsMade + 1⟩

/-- uploadSingleFile: quick size validation, then the retry loop.  The
attempts function gives how the n-th network attempt would settle. -/
def uploadSingleFile (f : JFile) (retries : Nat)
    (attempts : Nat → AttemptOutcome) : UploadTrace :=
  if maxSizeDefault < f.size then
    ⟨some (failRes f (sizeErrorTemplate maxSizeDefault)), [], 0⟩
  else uploadLoop f attempts 0 retries

/-! ### validateFile -/

/-- Type-not-allowed message of validateFile. -/
def typeErrorMsg : String := "不支持的文件类型"

/-- One allowedTypes pattern check: a star pattern matches when the file
type starts with the pattern's main type (the part before the slash, as in
type.split); otherwise the types must be equal.  Character-list operations
stand in for the JS string methods includes / split / startsWith. -/
def typeMatches (ftype : String) (pattern : String) : Bool :=
  if pattern.toList.contains '*' then
    (pattern.toList.takeWhile (fun c => !(c = '/'))).isPrefixOf ftype.toList
  else ftype = pattern

/-- Result shape of validateFile. -/
structure ValidateResult where
  isValid : Bool
  errors : List String
deriving DecidableEq

/-- validateFile: collects a size error and a type error, valid when no
error was collected. -/
def validateFile (f : JFile) (maxSize : Nat) (allowedTypes : List String) :
    ValidateResult :=
  let errors :=
    (if maxSize < f.size then [sizeErrorTemplate maxSize] else []) ++
    (if allowedTypes.any (typeMatches f.type) then [] else [typeErrorMsg])
  ⟨errors.isEmpty, errors⟩

/-- Invariant of the pool loop: every index below the shared cursor is either
already stored (as the captured outcome of its own task) or currently claimed
by some running worker, claimed indices are below the cursor, and while work
remains some worker has not exited. -/
structure PoolInv {α : Type} (tasks : List (Except String α)) (limit : Nat)
    (s : PoolSt α) : Prop where
  resLen : s.results.length = tasks.length
  curLe : s.cursor ≤ tasks.length
  claimed : ∀ j, j < s.cursor →
    s.results.getD j none = some (capture (tasks.getD j (.error ""))) ∨
    ∃ w, s.workers.get? w = some (.running j)
  runLt : ∀ w i, s.workers.get? w = some (.running i) → i < s.cursor
  notDone : s.cursor < tasks.length → ∃ st ∈ s.workers, st ≠ WStat.done

/-! ### createThrottle

createThrottle(fn, delay) keeps lastCall (0 initially), lastArgs (null) and
timeoutId (null).  A call first stores its args in lastArgs; if at least
delay has elapsed since lastCall it fires fn immediately and records the
time; otherwise, if no timeout is pending, it schedules one for
delay - (now - lastCall) from now, i.e. at lastCall + delay.  The timeout
callback records the time, clears the pending id and fires fn with the
latest lastArgs.  flush clears any pending timeout and, whenever lastArgs
is non-null, fires fn with it and clears lastArgs.  Note that the
immediate-fire path does not clear lastArgs. -/

/-- Throttle closure state; timeoutAt is the absolute time the pending
timeout (if any) was scheduled to fire (none models timeoutId = null). -/
structure Throttle (α : Type) where
  lastCall : Nat
  lastArgs : Option α
  timeoutAt : Option Nat
deriving DecidableEq

/-- Fresh throttle closure. -/
def throttleInit (α : Type) : Throttle α := ⟨0, none, none⟩

/-- One invocation of the throttled function at wall-clock time now; returns
the new state and the args fn was fired with, if it fired synchronously.
Times only move forward, so Nat subtraction matches the JS arithmetic. -/
def throttleCall {α : Type} (delay : Nat) (st : Throttle α) (now : Nat)
    (args : α) : Throttle α × Option α :=
  let st1 : Throttle α := { st with lastArgs := some args }
  if delay ≤ now - st1.lastCall then
    ({ st1 with lastCall := now }, some args)
  else if st1.timeoutAt = none then
    ({ st1 with timeoutAt := some (st1.lastCall + delay) }, none)
  else (st1, none)

/-- The scheduled timeout callback firing at time now: records the time,
clears the pending id, and fires fn with lastArgs when it is non-null. -/
def throttleTimerFire {α : Type} (st : Throttle α) (now : Nat) :
    Throttle α × Option α :=
  match st.lastArgs with
  | some a => ({ st with lastCall := now, timeoutAt := none }, some a)
  | none => ({ st with lastCall := now, timeoutAt := none }, none)

/-- throttled.flush(): clear any pending timeout; if lastArgs is non-null,
fire fn with it and null it out. -/
def throttleFlush {α : Type} (st : Throttle α) : Throttle α × Option α :=
  match st.lastArgs with
  | some a => ({ st with lastArgs := none, timeoutAt := none }, some a)
  | none => ({ st with timeoutAt := none }, none)

/-! ### Optimistic favorite store (useFavoriteStore)

Each mutation snapshots the parts of the state it will touch, applies the
optimistic update synchronously, then awaits the remote call; on rejection
it restores the snapshot and records the error message.  The returned value
is the \x7bsuccess, error?\x7d object.  Each action is modelled as a function of
the pre-state, the argument, and how the remote call settles, returning the
optimistically updated state (observable before the remote call resolves),
the final state, and the returned object. -/

/-- An image element of a store list; only the id field is read by the
mutations modelled here. -/
structure FavImage where
  id : String
deriving DecidableEq

/-- Favorite store state touched by the mutations. -/
structure FavState where
  favorites : Finset String
  favoriteImages : List FavImage
  error : Option String
deriving DecidableEq

/-- How a remote confirmation call settles: resolves, or rejects with an
optional error.response?.data?.error payload (none = absent or falsy). -/
inductive Remote where
  | ok
  | fail (payload : Option String)
deriving DecidableEq

/-- The \x7bsuccess, error?\x7d object returned by store actions. -/
structure ActionOut where
  success : Bool
  error : Option String
deriving DecidableEq

/-- addFavorite(imageId): snapshot, optimistic insert, remote call; on
failure restore the snapshot and surface the error. -/
def addFavorite (s : FavState) (imageId : String) (remote : Remote) :
    FavState × FavState × ActionOut :=
  let oldFavorites := s.favorites
  let mid : FavState := { s with favorites := insert imageId s.favorites }
  match remote with
  | .ok => (mid, mid, ⟨true, none⟩)
  | .fail payload =>
    let msg := jsOrS payload "添加收藏失败"
    (mid, { mid with favorites := oldFavorites, error := some msg },
      ⟨false, some msg⟩)

/-- removeFavorite(imageId): snapshot both favorites and favoriteImages,
optimistic delete, remote call; on failure restore both. -/
def removeFavorite (s : FavState) (imageId : String) (remote : Remote) :
    FavState × FavState × ActionOut :=
  let oldFavorites := s.favorites
  let oldFavoriteImages := s.favoriteImages
  let mid : FavState := { s with
    favorites := s.favorites.erase imageId,
    favoriteImages := s.favoriteImages.filter (fun img => !(img.id = imageId)) }
  match remote with
  | .ok => (mid, mid, ⟨true, none⟩)
  | .fail payload =>
    let msg := jsOrS payload "取消收藏失败"
    (mid,
      { mid with favorites := oldFavorites,
                 favoriteImages := oldFavoriteImages, error := some msg },
      ⟨false, some msg⟩)

/-- addFavorites(imageIds): batch optimistic insert of every id, one remote
batch call; on failure restore the whole snapshot. -/
def addFavorites (s : FavState) (imageIds : List String) (remote : Remote) :
    FavState × FavState × ActionOut :=
  let oldFavorites := s.favorites
  let mid : FavState := { s with favorites := s.favorites ∪ imageIds.toFinset }
  match remote with
  | .ok => (mid, mid, ⟨true, none⟩)
  | .fail payload =>
    let msg := jsOrS payload "批量添加收藏失败"
    (mid, { mid with favorites := oldFavorites, error := some msg },
      ⟨false, some msg⟩)

/-- removeFavorites(imageIds): batch optimistic delete of every id from the
set and the list, one remote batch call; on failure restore the whole
snapshot. -/
def removeFavorites (s : FavState) (imageIds : List String) (remote : Remote) :
    FavState × FavState × ActionOut :=
  let oldFavorites := s.favorites
  let oldFavoriteImages := s.favoriteImages
  let mid : FavState := { s with
    favorites := s.favorites \ imageIds.toFinset,
    favoriteImages :=
      s.favoriteImages.filter (fun img => !(imageIds.contains img.id)) }
  match remote with
  | .ok => (mid, mid, ⟨true, none⟩)
  | .fail payload =>
    let msg := jsOrS payload "批量取消收藏失败"
    (mid,
      { mid with favorites := oldFavorites,
                 favoriteImages := oldFavoriteImages, error := some msg },
      ⟨false, some msg⟩)

/-! ### Image store: deleteImages -/

/-- Image store state touched by deleteImages. -/
structure ImgState where
  images : List FavImage
  selectedImages : Finset String
  isSelectionMode : Bool
  isLoading : Bool
  error : Option String
deriving DecidableEq

/-- deleteImages(imageIds): build one delete task per id and await
runWithConcurrencyLimit(deleteTasks, 5).  The worker loop of the limiter
captures every task rejection into its result slot (see poolStep /
capture), so the awaited pool promise always resolves and the catch branch
of deleteImages cannot be entered; the match below keeps both branches of
the source's try / catch, with the pool outcome being the resolved list of
captured per-task results.  (The unreachable catch would surface
error.response?.data?.error OR the generic batch-delete message.) -/
def deleteImages (s : ImgState) (imageIds : List String)
    (remote : String → Except String Unit) : ImgState × ActionOut :=
  let s1 : ImgState := { s with isLoading := true, error := none }
  let pool : Except String (List (PoolRes Unit)) :=
    .ok ((imageIds.map remote).map capture)
  match pool with
  | .ok _ =>
    ({ s1 with
        images := s1.images.filter (fun img => !(imageIds.contains img.id)),
        selectedImages := ∅, isSelectionMode := false,
        isLoading := false, error := none }, ⟨true, none⟩)
  | .error _ =>
    let msg := "批量删除失败"
    ({ s1 with error := some msg, isLoading := false }, ⟨false, some msg⟩)

/-! ### Batch orchestrator: runWithConcurrency

runWithConcurrency(tasks, files, concurrency, onProgress) runs the same
claim-by-shared-cursor worker loop as the limiter above, but each task takes
a per-file progress callback, byte-weighted progress is accumulated in
uploadedSizeCache, and aggregate events are delivered through a throttled
copy of onProgress (100 ms).  After Promise.all the code flushes the
throttle and calls onProgress directly with a forced 100 percent event.

A task is modelled by a script: the sequence of per-file percent values it
passes to its progress callback, followed by how its promise settles.
JS float arithmetic on the small exact values involved is modelled by Rat;
Math.round is floor(x + 1/2); the NaN produced when totalSize is 0 is
modelled by none in Option Int, and Math.min(NaN, 99) = NaN is respected by
min99.  The machine is stepped by a schedule of actions: advance the clock,
run one worker to its next suspension point, or fire the pending throttle
timeout. -/

/-- Decidable equality of task outcomes (used to derive it for scripts and
machine states). -/
instance exceptDecEq {α : Type} [DecidableEq α] :
    DecidableEq (Except String α) := fun a b =>
  match a, b with
  | .ok x, .ok y =>
    if h : x = y then .isTrue (by rw [h]) else .isFalse (by simp [h])
  | .ok _, .error _ => .isFalse (by simp)
  | .error _, .ok _ => .isFalse (by simp)
  | .error x, .error y =>
    if h : x = y then .isTrue (by rw [h]) else .isFalse (by simp [h])

/-- Behaviour of one task: the per-file percent values it reports, in
order, then how it settles. -/
structure Script (α : Type) where
  progress : List ℚ
  outcome : Except String α
deriving DecidableEq

/-- A slot of the results array of runWithConcurrency: the task's resolved
value, or the failure object built in the catch branch. -/
inductive BSlot (α : Type) where
  | val (r : α)
  | failSlot (error : String)
deriving DecidableEq

/-- A progress event given to the consumer callback; percent is none when
the JS computation produced NaN. -/
structure PEvent (α : Type) where
  completed : Nat
  total : Nat
  percent : Option ℤ
  currentIndex : Nat
  result : Option (BSlot α)
deriving DecidableEq

/-- Math.round for the exact values produced here: round half toward
positive infinity. -/
def jsRound (q : ℚ) : ℤ := ⌊q + 1 / 2⌋

/-- Math.round((uploadedSizeCache / totalSize) * 100): NaN (none) when
totalSize is 0, as in JS 0 / 0. -/
def totalPercent (uploaded totalSize : ℚ) : Option ℤ :=
  if totalSize = 0 then none else some (jsRound (uploaded / totalSize * 100))

/-- Math.min(x, 99), propagating NaN. -/
def min99 : Option ℤ → Option ℤ
  | none => none
  | some z => some (min z 99)

/-- The total byte size of the batch. -/
def totalQ (sizes : List Nat) : ℚ := (sizes.sum : ℚ)

/-- A worker of the batch pool: idle at the cursor test, running a claimed
index with the not-yet-reported part of its script, or exited. -/
inductive BWorker (α : Type) where
  | idle
  | running (i : Nat) (rest : List ℚ)
  | done
deriving DecidableEq

/-- Whether a batch worker has exited its loop. -/
def BWorker.isDone {α : Type} : BWorker α → Bool
  | .done => true
  | _ => false

/-- State of one runWithConcurrency invocation between suspension points. -/
structure BState (α : Type) where
  time : Nat
  cursor : Nat
  completed : Nat
  results : List (Option (BSlot α))
  fileProgress : List ℚ
  uploaded : ℚ
  thr : Throttle (PEvent α)
  workers : List (BWorker α)
  emitted : List (PEvent α)
deriving DecidableEq

/-- Scheduler actions for the batch machine. -/
inductive BAct where
  | tick (t : Nat)
  | sched (w : Nat)
  | timer
deriving DecidableEq

/-- Default script used only for out-of-range reads (never hit under the
machine invariants). -/
def defScript (α : Type) : Script α := ⟨[], .error ""⟩

/-- One step of the batch machine.  tick advances the clock; timer fires
the pending throttle timeout once its scheduled time has been reached;
sched w runs worker w: claim the next index (taking its script), exit the
loop, report the next per-file percent (the onFileProgress body: update
fileProgress and uploadedSizeCache, compute the capped aggregate percent,
invoke the throttled callback), or settle (store the result or the caught
failure object, bump completed, account the remaining bytes, and on
success invoke the throttled callback — with exactly 100 when this was the
last task). -/
def bstep {α : Type} (sizes : List Nat) (scripts : List (Script α))
    (s : BState α) : BAct → Option (BState α)
  | .tick t => if s.time ≤ t then some { s with time := t } else none
  | .timer =>
    match s.thr.timeoutAt with
    | none => none
    | some tf =>
      if tf ≤ s.time then
        let fired := throttleTimerFire s.thr s.time
        some { s with thr := fired.1, emitted := s.emitted ++ fired.2.toList }
      else none
  | .sched w =>
    match s.workers.get? w with
    | none => none
    | some .done => none
    | some .idle =>
      if s.cursor < scripts.length then
        some { s with
          cursor := s.cursor + 1,
          workers := s.workers.set w
            (.running s.cursor ((scripts.getD s.cursor (defScript α)).progress)) }
      else some { s with workers := s.workers.set w .done }
    | some (.running i (p :: rest)) =>
      let size : ℚ := (sizes.getD i 0 : ℚ)
      let newProgress := size * p / 100
      let delta := newProgress - s.fileProgress.getD i 0
      let uploaded := s.uploaded + delta
      let ev : PEvent α := ⟨s.completed, scripts.length,
        min99 (totalPercent uploaded (totalQ sizes)), i, none⟩
      let tc := throttleCall 100 s.thr s.time ev
      some { s with
        fileProgress := s.fileProgress.set i newProgress,
        uploaded := uploaded, thr := tc.1,
        emitted := s.emitted ++ tc.2.toList,
        workers := s.workers.set w (.running i rest) }
    | some (.running i []) =>
      match (scripts.getD i (defScript α)).outcome with
      | .ok r =>
        let size : ℚ := (sizes.getD i 0 : ℚ)
        let finalDelta := size - s.fileProgress.getD i 0
        let uploaded := s.uploaded + finalDelta
        let c := s.completed + 1
        let ev : PEvent α := ⟨c, scripts.length,
          if c = scripts.length then some 100
          else min99 (totalPercent uploaded (totalQ sizes)), i,
          some (.val r)⟩
        let tc := throttleCall 100 s.thr s.time ev
        some { s with
          results := s.results.set i (some (.val r)),
          completed := c, fileProgress := s.fileProgress.set i size,
          uploaded := uploaded, thr := tc.1,
          emitted := s.emitted ++ tc.2.toList,
          workers := s.workers.set w .idle }
      | .error m =>
        let size : ℚ := (sizes.getD i 0 : ℚ)
        let finalDelta := size - s.fileProgress.getD i 0
        some { s with
          results := s.results.set i
            (some (.failSlot (jsOrS (some m) genericUploadError))),
          completed := s.completed + 1,
          fileProgress := s.fileProgress.set i size,
          uploaded := s.uploaded + finalDelta,
          workers := s.workers.set w .idle }

/-- Initial batch state: clock 0, fresh throttle, fileProgress filled with
zeros, min(concurrency, tasks.length) idle workers. -/
def initB (α : Type) (sizes : List Nat) (n concurrency : Nat) : BState α :=
  ⟨0, 0, 0, List.replicate n none, List.replicate sizes.length 0, 0,
    throttleInit (PEvent α), List.replicate (min concurrency n) .idle, []⟩

/-- Run the batch machine under a schedule. -/
def runB {α : Type} (sizes : List Nat) (scripts : List (Script α))
    (concurrency : Nat) (acts : List BAct) : Option (BState α) :=
  acts.foldlM (fun s a => bstep sizes scripts s a)
    (initB α sizes scripts.length concurrency)

/-- The epilogue after Promise.all resolves: throttledProgress.flush()
followed by the direct onProgress call with the forced 100 percent event
(completed = total, currentIndex = tasks.length - 1, result = the last
results slot).  Returns the full stream delivered to the consumer. -/
def finishEvents {α : Type} (scripts : List (Script α)) (s : BState α) :
    List (PEvent α) :=
  s.emitted ++ (throttleFlush s.thr).2.toList ++
    [⟨scripts.length, scripts.length, some 100, scripts.length - 1,
      s.results.getD (s.results.length - 1) none⟩]

/-- The complete consumer-visible event stream of one batch run: defined
when the schedule runs the pool to completion (all workers exited). -/
def runBatchEvents {α : Type} (sizes : List Nat) (scripts : List (Script α))
    (concurrency : Nat) (acts : List BAct) : Option (List (PEvent α)) :=
  match runB sizes scripts concurrency acts with
  | none => none
  | some s =>
    if s.workers.all BWorker.isDone then some (finishEvents scripts s)
    else none

/-- Order on possibly-NaN percent values: every numeric value of the left
is at most every numeric value of the right (vacuous on NaN). -/
def pLe (a b : Option ℤ) : Prop :=
  ∀ x y, a = some x → b = some y → x ≤ y

/-- Invariant of the batch machine carrying everything needed for the
progress-stream properties: array lengths, the completed counter counting
exactly the populated slots, per-file progress bounds, the per-worker
relation between a claimed index and its remaining script, distinctness of
claims, and the throttle / emitted-stream ordering facts. -/
structure BInvM {α : Type} (sizes : List Nat) (scripts : List (Script α))
    (s : BState α) : Prop where
  resLen : s.results.length = scripts.length
  fpLen : s.fileProgress.length = sizes.length
  curLe : s.cursor ≤ scripts.length
  compl : s.completed = s.results.countP (fun o => o.isSome)
  resNew : ∀ i, s.cursor ≤ i → s.results.getD i none = none
  fpNew : ∀ i, s.cursor ≤ i → s.fileProgress.getD i 0 = 0
  fpBound : ∀ i, 0 ≤ s.fileProgress.getD i 0 ∧
    s.fileProgress.getD i 0 ≤ ((sizes.getD i 0 : Nat) : ℚ)
  runs : ∀ w i rest, s.workers.get? w = some (.running i rest) →
    i < s.cursor ∧ rest <:+ (scripts.getD i (defScript α)).progress ∧
    s.results.getD i none = none ∧
    ∀ p ∈ rest,
      s.fileProgress.getD i 0 ≤ ((sizes.getD i 0 : Nat) : ℚ) * p / 100
  dist : ∀ w w' i rest i' rest', w ≠ w' →
    s.workers.get? w = some (.running i rest) →
    s.workers.get? w' = some (.running i' rest') → i ≠ i'
  emitOk : ∀ e ∈ s.emitted, (∃ z, e.percent = some z ∧ z ≤ 100) ∧
    (e.percent = some 100 → e.completed = scripts.length)
  chain : List.Chain' (fun a b => pLe a.percent b.percent) s.emitted
  lastOk : ∀ la, s.thr.lastArgs = some la →
    (∀ e ∈ s.emitted, pLe e.percent la.percent) ∧
    (∃ z, la.percent = some z ∧ z ≤ 100) ∧
    (la.percent = some 100 → la.completed = scripts.length) ∧
    (pLe la.percent (min99 (totalPercent s.uploaded (totalQ sizes))) ∨
      (la.percent = some 100 ∧ s.completed = scripts.length))
  lastNone : s.thr.lastArgs = none → s.emitted = []

/-- The per-file progress value written by the onFileProgress body:
file.size * percent / 100. -/
def newFileProgress (sizes : List Nat) (i : Nat) (p : ℚ) : ℚ :=
  (sizes.getD i 0 : ℚ) * p / 100

/-- uploadedSizeCache after the onFileProgress body for file i at percent
p. -/
def progressUploaded {α : Type} (sizes : List Nat) (s : BState α) (i : Nat)
    (p : ℚ) : ℚ :=
  s.uploaded + (newFileProgress sizes i p - s.fileProgress.getD i 0)

/-- The event passed to the throttled callback by the onFileProgress body. -/
def progressEv (α : Type) (sizes : List Nat) (scripts : List (Script α))
    (s : BState α) (i : Nat) (p : ℚ) : PEvent α :=
  ⟨s.completed, scripts.length,
    min99 (totalPercent (progressUploaded sizes s i p) (totalQ sizes)),
    i, none⟩

/-- uploadedSizeCache after the completion accounting for file i. -/
def settleUploaded {α : Type} (sizes : List Nat) (s : BState α) (i : Nat) : ℚ :=
  s.uploaded + ((sizes.getD i 0 : ℚ) - s.fileProgress.getD i 0)

/-- The event passed to the throttled callback when task i resolves with r. -/
def settleEv {α : Type} (sizes : List Nat) (scripts : List (Script α))
    (s : BState α) (i : Nat) (r : α) : PEvent α :=
  ⟨s.completed + 1, scripts.length,
    if s.completed + 1 = scripts.length then some 100
    else min99 (totalPercent (settleUploaded sizes s i) (totalQ sizes)),
    i, some (.val r)⟩

/-- Light invariant for the degenerate zero-total-size batch: every event
emitted or stored in the throttle has NaN percent, or percent exactly 100
with completedCount equal to the task count. -/
structure BInvZ {α : Type} (scripts : List (Script α)) (s : BState α) :
    Prop where
  emitZ : ∀ e ∈ s.emitted, e.percent = none ∨
    (e.percent = some 100 ∧ e.completed = scripts.length)
  lastZ : ∀ la, s.thr.lastArgs = some la → la.percent = none ∨
    (la.percent = some 100 ∧ la.completed = scripts.length)

/-! ### Theorems -/
/-! ### List access lemmas used to reason about array writes -/

theorem getD_set_self {α : Type} (l : List α) (i : Nat) (a d : α)
    (h : i < l.length) : (l.set i a).getD i d = a := by
  induction l generalizing i with
  | nil => simp at h
  | cons x xs ih =>
    cases i with
    | zero => simp [List.set, List.getD]
    | succ n =>
      simp only [List.set, List.getD] at *
      exact ih n (by simpa using h)

theorem getD_set_ne {α : Type} (l : List α) (i j : Nat) (a d : α)
    (h : i ≠ j) : (l.set i a).getD j d = l.getD j d := by
  induction l generalizing i j with
  | nil => simp [List.set]
  | cons x xs ih =>
    cases i with
    | zero =>
      cases j with
      | zero => exact absurd rfl h
      | succ m => simp [List.set, List.getD]
    | succ n =>
      cases j with
      | zero => simp [List.set, List.getD]
      | succ m =>
        simp only [List.set, List.getD] at *
        exact ih n m (fun hnm => h (by omega))

theorem get?_set_self {α : Type} (l : List α) (i : Nat) (a : α)
    (h : i < l.length) : (l.set i a).get? i = some a := by
  induction l generalizing i with
  | nil => simp at h
  | cons x xs ih =>
    cases i with
    | zero => simp [List.set]
    | succ n => simpa [List.set] using ih n (by simpa using h)

theorem get?_set_ne {α : Type} (l : List α) (i j : Nat) (a : α)
    (h : i ≠ j) : (l.set i a).get? j = l.get? j := by
  induction l generalizing i j with
  | nil => simp [List.set]
  | cons x xs ih =>
    cases i with
    | zero =>
      cases j with
      | zero => exact absurd rfl h
      | succ m => simp [List.set]
    | succ n =>
      cases j with
      | zero => simp [List.set]
      | succ m => simpa [List.set] using ih n m (fun hnm => h (by omega))

theorem mem_of_get? {α : Type} {l : List α} {n : Nat} {a : α}
    (h : l.get? n = some a) : a ∈ l := by
  induction l generalizing n with
  | nil => simp at h
  | cons x xs ih =>
    cases n with
    | zero => simp at h; simp [h]
    | succ m => exact List.mem_cons_of_mem x (ih (by simpa using h))

theorem poolStep_inv {α : Type} {tasks : List (Except String α)} {limit : Nat}
    {s s' : PoolSt α} {w : Nat} (hInv : PoolInv tasks limit s)
    (hstep : poolStep tasks s w = some s') : PoolInv tasks limit s' := by
  unfold poolStep at hstep
  cases hw : s.workers.get? w with
  | none => rw [hw] at hstep; exact absurd hstep (by simp)
  | some st =>
    rw [hw] at hstep
    have hwlt : w < s.workers.length := List.get?_eq_some.mp hw |>.1
    cases st with
    | done => exact absurd hstep (by simp)
    | idle =>
      by_cases hcur : s.cursor < tasks.length
      · simp only [if_pos hcur, Option.some.injEq] at hstep
        subst hstep
        refine ⟨hInv.resLen, by dsimp only; omega, ?_, ?_, ?_⟩
        · intro j hj
          dsimp only at hj ⊢
          by_cases hjc : j = s.cursor
          · subst hjc
            exact Or.inr ⟨w, by rw [get?_set_self _ _ _ hwlt]⟩
          · rcases hInv.claimed j (by omega) with h | ⟨w', hw'⟩
            · exact Or.inl h
            · refine Or.inr ⟨w', ?_⟩
              have hww : w ≠ w' := by
                intro he; rw [he, hw'] at hw; exact absurd hw (by simp)
              rw [get?_set_ne _ _ _ _ hww]; exact hw'
        · intro w' i hw'
          dsimp only at hw' ⊢
          by_cases hww : w = w'
          · subst hww
            rw [get?_set_self _ _ _ hwlt] at hw'
            have : i = s.cursor := by
              injection hw' with h; injection h with h; omega
            omega
          · rw [get?_set_ne _ _ _ _ hww] at hw'
            have := hInv.runLt w' i hw'
            omega
        · intro _
          dsimp only
          exact ⟨.running s.cursor,
            mem_of_get? (get?_set_self _ _ _ hwlt), by simp⟩
      · simp only [if_neg hcur, Option.some.injEq] at hstep
        subst hstep
        refine ⟨hInv.resLen, hInv.curLe, ?_, ?_, ?_⟩
        · intro j hj
          dsimp only at hj ⊢
          rcases hInv.claimed j hj with h | ⟨w', hw'⟩
          · exact Or.inl h
          · refine Or.inr ⟨w', ?_⟩
            have hww : w ≠ w' := by
              intro he; rw [he, hw'] at hw; exact absurd hw (by simp)
            rw [get?_set_ne _ _ _ _ hww]; exact hw'
        · intro w' i hw'
          dsimp only at hw' ⊢
          by_cases hww : w = w'
          · subst hww
            rw [get?_set_self _ _ _ hwlt] at hw'
            exact absurd hw' (by simp)
          · rw [get?_set_ne _ _ _ _ hww] at hw'
            exact hInv.runLt w' i hw'
        · intro hc; dsimp only at hc; omega
    | running i =>
      simp only [Option.some.injEq] at hstep
      subst hstep
      have hi : i < s.cursor := hInv.runLt w i hw
      refine ⟨by simp [hInv.resLen], hInv.curLe, ?_, ?_, ?_⟩
      · intro j hj
        dsimp only at hj ⊢
        by_cases hji : j = i
        · subst hji
          refine Or.inl ?_
          have hcle := hInv.curLe
          rw [getD_set_self _ _ _ _ (by rw [hInv.resLen]; omega)]
        · rcases hInv.claimed j hj with h | ⟨w', hw'⟩
          · refine Or.inl ?_
            rw [getD_set_ne _ _ _ _ _ (fun he => hji he.symm)]
            exact h
          · by_cases hww : w = w'
            · subst hww
              rw [hw'] at hw
              have : i = j := by
                injection hw with h; injection h with h2; exact h2.symm
              exact absurd this.symm hji
            · refine Or.inr ⟨w', ?_⟩
              rw [get?_set_ne _ _ _ _ hww]; exact hw'
      · intro w' j hw'
        dsimp only at hw' ⊢
        by_cases hww : w = w'
        · subst hww
          rw [get?_set_self _ _ _ hwlt] at hw'
          exact absurd hw' (by simp)
        · rw [get?_set_ne _ _ _ _ hww] at hw'
          exact hInv.runLt w' j hw'
      · intro _
        dsimp only
        exact ⟨.idle, mem_of_get? (get?_set_self _ _ _ hwlt), by simp⟩

theorem runPool_inv_aux {α : Type} (tasks : List (Except String α))
    (limit : Nat) : ∀ (acts : List Nat) (s0 s : PoolSt α),
    PoolInv tasks limit s0 →
    acts.foldlM (poolStep tasks) s0 = some s → PoolInv tasks limit s := by
  intro acts
  induction acts with
  | nil => intro s0 s h0 hrun; simp at hrun; rwa [← hrun]
  | cons a rest ih =>
    intro s0 s h0 hrun
    simp only [List.foldlM_cons] at hrun
    cases hstep : poolStep tasks s0 a with
    | none => rw [hstep] at hrun; exact absurd hrun (by simp)
    | some s1 =>
      rw [hstep] at hrun
      exact ih s1 s (poolStep_inv h0 hstep) hrun

theorem initPool_inv {α : Type} (tasks : List (Except String α)) (limit : Nat)
    (hK : 1 ≤ limit) : PoolInv tasks limit (initPool α tasks.length limit) := by
  refine ⟨by simp [initPool], by simp [initPool], ?_, ?_, ?_⟩
  · intro j hj; simp [initPool] at hj
  · intro w i hw
    simp only [initPool] at hw
    have h := List.eq_of_mem_replicate (mem_of_get? hw)
    exact absurd h (by simp)
  · intro hc
    refine ⟨.idle, ?_, by simp⟩
    simp only [initPool]
    refine List.mem_replicate.mpr ⟨?_, rfl⟩
    omega

/-- C1: for every ordered list of N tasks and every concurrency limit K ≥ 1,
under any schedule that runs the worker pool to completion (all workers have
exited their loop), the pool resolves with a results array of exactly length
N in which slot i holds the outcome of task i regardless of completion
order; a task that rejects does not stop the pool (its slot holds the
captured failure object and the claiming worker proceeds), and completion
implies every task has settled (every slot is populated). -/
theorem workerPool_results_complete {α : Type}
    (tasks : List (Except String α)) (limit : Nat) (acts : List Nat)
    (s : PoolSt α) (hK : 1 ≤ limit) (hrun : runPool tasks limit acts = some s)
    (hdone : ∀ st ∈ s.workers, st = WStat.done) :
    s.results = tasks.map (fun t => some (capture t)) := by
  have hInv := runPool_inv_aux tasks limit acts _ s
    (initPool_inv tasks limit hK) hrun
  have hcur : s.cursor = tasks.length := by
    rcases Nat.lt_or_ge s.cursor tasks.length with h | h
    · rcases hInv.notDone h with ⟨st, hmem, hne⟩
      exact absurd (hdone st hmem) hne
    · exact Nat.le_antisymm hInv.curLe h
  refine List.ext_getElem (by simp [hInv.resLen]) ?_
  intro j h1 h2
  have hj : j < tasks.length := by simpa using h2
  rcases hInv.claimed j (by omega) with hres | ⟨w, hw⟩
  · have e1 : s.results[j] = some (capture (tasks.getD j (.error ""))) := by
      rw [← List.getD_eq_getElem s.results none h1]; exact hres
    rw [e1, List.getElem_map]
    congr 1
    rw [List.getD_eq_getElem tasks _ hj]
  · exact absurd (hdone _ (mem_of_get? hw)) (by simp)

/-- Witness for C1: a concrete 3-task batch with limit 2 where the middle
task rejects; a complete schedule yields exactly the captured outcomes. -/
theorem workerPool_results_complete_witness :
    runPool [Except.ok 1, Except.error "boom", Except.ok 2] 2
        [0, 1, 0, 1, 0, 1, 0, 0] =
      some (⟨3, [some (.val 1), some (.errObj "boom"), some (.val 2)],
        [.done, .done]⟩ : PoolSt Nat) ∧
    ([some (PoolRes.val 1), some (.errObj "boom"), some (.val 2)] :
        List (Option (PoolRes Nat))) =
      [Except.ok 1, Except.error "boom", Except.ok 2].map
        (fun t => some (capture t)) := by
  refine ⟨by decide, ?_⟩
  exact workerPool_results_complete
    [Except.ok 1, Except.error "boom", Except.ok 2] 2
    [0, 1, 0, 1, 0, 1, 0, 0]
    ⟨3, [some (.val 1), some (.errObj "boom"), some (.val 2)],
      [.done, .done]⟩
    (by decide) (by decide) (by decide)

theorem uploadLoop_delays_len (f : JFile) (attempts : Nat → AttemptOutcome) :
    ∀ (remaining attempt n : Nat),
    n < (uploadLoop f attempts attempt remaining).delays.length →
    (uploadLoop f attempts attempt remaining).delays.getD n 0 =
      1000 * (attempt + n + 1) := by
  intro remaining
  induction remaining with
  | zero => intro attempt n h; simp [uploadLoop] at h
  | succ rem ih =>
    intro attempt n
    unfold uploadLoop
    cases attemptOk (attempts attempt) with
    | some src => intro h; simp at h
    | none =>
      by_cases hrem : rem = 0
      · simp only [if_pos hrem]; intro h; simp at h
      · simp only [if_neg hrem]
        intro h
        cases n with
        | zero => simp
        | succ m =>
          have hm : m <
              (uploadLoop f attempts (attempt + 1) rem).delays.length := by
            simpa using h
          have := ih (attempt + 1) m hm
          simp only [List.getD, List.get?] at this ⊢
          rw [this]; ring_nf

/-- C2: in the retrying single-item uploader, the n-th backoff wait (the
delay performed after the zero-indexed attempt n failed, before attempt
n + 1) equals baseDelay * (n + 1) with baseDelay = 1000 ms — linear, not
exponential, backoff. -/
theorem uploadRetry_linear_backoff (f : JFile) (retries : Nat)
    (attempts : Nat → AttemptOutcome) (n : Nat)
    (h : n < (uploadSingleFile f retries attempts).delays.length) :
    (uploadSingleFile f retries attempts).delays.getD n 0 = 1000 * (n + 1) := by
  unfold uploadSingleFile at h ⊢
  by_cases hsz : maxSizeDefault < f.size
  · rw [if_pos hsz] at h; simp at h
  · rw [if_neg hsz] at h ⊢
    have := uploadLoop_delays_len f attempts retries 0 n h
    simpa using this

/-- Witness for C2: a 1-byte file whose first two attempts reject waits
1000 ms and then 2000 ms; the second recorded delay is 1000 * 2. -/
theorem uploadRetry_linear_backoff_witness :
    1 < (uploadSingleFile ⟨"a.png", 1, "image/png"⟩ 3
        (fun _ => .rejected none "neterr")).delays.length ∧
    (uploadSingleFile ⟨"a.png", 1, "image/png"⟩ 3
        (fun _ => .rejected none "neterr")).delays.getD 1 0 = 1000 * (1 + 1) :=
  ⟨by decide, uploadRetry_linear_backoff ⟨"a.png", 1, "image/png"⟩ 3
    (fun _ => .rejected none "neterr") 1 (by decide)⟩

theorem uploadLoop_fail_all (f : JFile) (attempts : Nat → AttemptOutcome) :
    ∀ (remaining attempt : Nat), 1 ≤ remaining →
    (∀ n, attempt ≤ n → n < attempt + remaining → attemptOk (attempts n) = none) →
    (uploadLoop f attempts attempt remaining).result =
      some (failRes f (attemptCatchError (attempts (attempt + remaining - 1)))) := by
  intro remaining
  induction remaining with
  | zero => intro attempt h; omega
  | succ rem ih =>
    intro attempt _ hall
    unfold uploadLoop
    rw [hall attempt (Nat.le_refl _) (by omega)]
    by_cases hrem : rem = 0
    · subst hrem; simp
    · simp only [if_neg hrem]
      have hres := ih (attempt + 1) (by omega)
        (fun n h1 h2 => hall n (by omega) (by omega))
      rw [show attempt + 1 + rem - 1 = attempt + (rem + 1) - 1 from by omega]
        at hres
      simpa using hres

theorem uploadLoop_ok_last (f : JFile) (attempts : Nat → AttemptOutcome) :
    ∀ (remaining attempt : Nat) (src : String), 1 ≤ remaining →
    (∀ n, attempt ≤ n → n + 1 < attempt + remaining → attemptOk (attempts n) = none) →
    attemptOk (attempts (attempt + remaining - 1)) = some src →
    (uploadLoop f attempts attempt remaining).result = some (okRes f src) := by
  intro remaining
  induction remaining with
  | zero => intro attempt src h; omega
  | succ rem ih =>
    intro attempt src _ hfail hok
    unfold uploadLoop
    by_cases hrem : rem = 0
    · subst hrem
      have : attempt + 1 - 1 = attempt := by omega
      rw [this] at hok
      rw [hok]
    · rw [hfail attempt (Nat.le_refl _) (by omega)]
      simp only [if_neg hrem]
      have := ih (attempt + 1) src (by omega)
        (fun n h1 h2 => hfail n (by omega) (by omega))
        (by rw [show attempt + 1 + rem - 1 = attempt + (rem + 1) - 1 by omega]
            exact hok)
      simpa using this

theorem uploadLoop_total (f : JFile) (attempts : Nat → AttemptOutcome) :
    ∀ (remaining attempt : Nat), 1 ≤ remaining →
    ∃ r, (uploadLoop f attempts attempt remaining).result = some r := by
  intro remaining
  induction remaining with
  | zero => intro attempt h; omega
  | succ rem ih =>
    intro attempt _
    unfold uploadLoop
    cases attemptOk (attempts attempt) with
    | some src => exact ⟨okRes f src, rfl⟩
    | none =>
      by_cases hrem : rem = 0
      · subst hrem
        exact ⟨failRes f (attemptCatchError (attempts attempt)), by simp⟩
      · rcases ih (attempt + 1) (by omega) with ⟨r, hr⟩
        exact ⟨r, by simpa [hrem] using hr⟩

/-- C3: for R total attempts allowed (R ≥ 1) and a file passing the size
check: failing attempts 1..R-1 and succeeding on attempt R resolves with a
success Result; failing all R attempts resolves with a failure Result whose
error string is the one derived from the last attempt (the remote error
payload when present and truthy, else the error message, else the generic
message); and in every case the call settles with a returned value — no
rejection escapes. -/
theorem uploadRetry_result_normalized (f : JFile) (R : Nat)
    (attempts : Nat → AttemptOutcome) (hR : 1 ≤ R)
    (hsize : f.size ≤ maxSizeDefault) :
    (∀ src, (∀ n, n + 1 < R → attemptOk (attempts n) = none) →
      attemptOk (attempts (R - 1)) = some src →
      (uploadSingleFile f R attempts).result = some (okRes f src)) ∧
    ((∀ n, n < R → attemptOk (attempts n) = none) →
      (uploadSingleFile f R attempts).result =
        some (failRes f (attemptCatchError (attempts (R - 1))))) ∧
    (∃ r, (uploadSingleFile f R attempts).result = some r) := by
  have hsz : ¬ maxSizeDefault < f.size := by omega
  refine ⟨?_, ?_, ?_⟩
  · intro src hfail hok
    unfold uploadSingleFile
    rw [if_neg hsz]
    exact uploadLoop_ok_last f attempts R 0 src hR
      (fun n h1 h2 => hfail n (by omega)) (by simpa using hok)
  · intro hfail
    unfold uploadSingleFile
    rw [if_neg hsz]
    have := uploadLoop_fail_all f attempts R 0 hR
      (fun n h1 h2 => hfail n (by omega))
    simpa using this
  · unfold uploadSingleFile
    rw [if_neg hsz]
    exact uploadLoop_total f attempts R 0 hR

/-- Witness for C3: two attempts allowed, first rejects, second resolves
with a src; the call resolves with the success Result. -/
theorem uploadRetry_result_normalized_witness :
    (uploadSingleFile ⟨"a.png", 1, "image/png"⟩ 2
        (fun n => if n = 0 then .rejected none "neterr"
                  else .resolved (some ⟨some "https"⟩))).result =
      some (okRes ⟨"a.png", 1, "image/png"⟩ "https") :=
  (uploadRetry_result_normalized ⟨"a.png", 1, "image/png"⟩ 2
      (fun n => if n = 0 then .rejected none "neterr"
                else .resolved (some ⟨some "https"⟩))
      (by decide) (by decide)).1 "https"
    (fun n hn => by
      have h0 : n = 0 := by omega
      subst h0; rfl)
    (by decide)

/-- Counterexample for C4: the single-item uploader does not validate the
file type.  This 100-byte text/plain file fails validateFile (type error),
yet uploadSingleFile performs a network attempt (one, not zero) and even
resolves with a success Result. -/
theorem uploadPreflight_type_unchecked_cex :
    (validateFile ⟨"a.txt", 100, "text/plain"⟩ maxSizeDefault
        ["image/*"]).isValid = false ∧
    (uploadSingleFile ⟨"a.txt", 100, "text/plain"⟩ 3
        (fun _ => .resolved (some ⟨some "u"⟩))).attemptsMade = 1 ∧
    (uploadSingleFile ⟨"a.txt", 100, "text/plain"⟩ 3
        (fun _ => .resolved (some ⟨some "u"⟩))).result =
      some (okRes ⟨"a.txt", 100, "text/plain"⟩ "u") := by
  refine ⟨by decide, by decide, by decide⟩

/-- C4 as amended: the single-item uploader pre-flight checks only the size
(type validation lives in the separate validateFile helper called by the UI
before uploading); a size violation short-circuits: it returns the size
failure Result immediately, with zero network attempts made, zero backoff
delays, and no retry consumed. -/
theorem uploadPreflight_size_short_circuit (f : JFile) (retries : Nat)
    (attempts : Nat → AttemptOutcome) (h : maxSizeDefault < f.size) :
    uploadSingleFile f retries attempts =
      ⟨some (failRes f (sizeErrorTemplate maxSizeDefault)), [], 0⟩ := by
  unfold uploadSingleFile
  rw [if_pos h]

/-- Witness for C4 (amended): an oversized file is rejected with the size
message, zero attempts, zero delays. -/
theorem uploadPreflight_size_short_circuit_witness :
    uploadSingleFile ⟨"big.png", 10 * 1024 * 1024 + 1, "image/png"⟩ 3
        (fun _ => .resolved (some ⟨some "u"⟩)) =
      ⟨some (failRes ⟨"big.png", 10 * 1024 * 1024 + 1, "image/png"⟩
        (sizeErrorTemplate maxSizeDefault)), [], 0⟩ :=
  uploadPreflight_size_short_circuit
    ⟨"big.png", 10 * 1024 * 1024 + 1, "image/png"⟩ 3
    (fun _ => .resolved (some ⟨some "u"⟩)) (by decide)

/-- Counterexample for C9: after an immediate (leading-edge) firing there is
no pending timeout, yet flush is not a no-op: the immediate path left
lastArgs set, so flush re-fires the wrapped callback once with the stale
args and changes the state. -/
theorem throttleFlush_not_idempotent_cex :
    (throttleCall 100 (throttleInit String) 100 "a").1 =
      (⟨100, some "a", none⟩ : Throttle String) ∧
    (⟨100, some "a", none⟩ : Throttle String).timeoutAt = none ∧
    (throttleFlush (⟨100, some "a", none⟩ : Throttle String)).2 = some "a" ∧
    (throttleFlush (⟨100, some "a", none⟩ : Throttle String)).1 ≠
      (⟨100, some "a", none⟩ : Throttle String) := by
  refine ⟨by decide, rfl, rfl, by decide⟩

/-- C9 as amended: flush always clears the pending timer; it fires the
wrapped callback exactly with the stored latest args — also when no timer
is pending but args remain from an earlier leading-edge firing — and then
clears the stored args; it is a no-op exactly when no args are stored (in
particular a second consecutive flush fires nothing and changes nothing). -/
theorem throttleFlush_behavior {α : Type} (st : Throttle α) (lc : Nat) :
    (throttleFlush st).1.timeoutAt = none ∧
    (throttleFlush st).2 = st.lastArgs ∧
    (throttleFlush st).1.lastArgs = none ∧
    throttleFlush (throttleFlush st).1 = ((throttleFlush st).1, none) ∧
    throttleFlush (⟨lc, none, none⟩ : Throttle α) =
      ((⟨lc, none, none⟩ : Throttle α), none) := by
  obtain ⟨lc0, la, ta⟩ := st
  cases la <;> simp [throttleFlush]

/-- C7: addFavorite(c) synchronously updates the membership to S0 with c
inserted before the remote call resolves; when the remote call fails, the
membership is restored to exactly the pre-mutation snapshot S0 and the
error message (remote payload when truthy, else the generic add-favorite
message) is surfaced both in the returned object and in the store error. -/
theorem addFavorite_optimistic_rollback (s : FavState) (c : String)
    (p : Option String) :
    (∀ r : Remote, (addFavorite s c r).1.favorites = insert c s.favorites) ∧
    (addFavorite s c (.fail p)).2.1.favorites = s.favorites ∧
    (addFavorite s c (.fail p)).2.1.error =
      some (jsOrS p "添加收藏失败") ∧
    (addFavorite s c (.fail p)).2.2 =
      ⟨false, some (jsOrS p "添加收藏失败")⟩ := by
  refine ⟨fun r => ?_, rfl, rfl, rfl⟩
  cases r <;> rfl

/-- C8: the batch favorite mutations are atomic at the client-state level:
on remote failure addFavorites and removeFavorites restore exactly the
pre-mutation snapshot (the whole membership set, and for removeFavorites
also the favoriteImages list), never a partial subset of the batch, and
report failure. -/
theorem batchFavorites_atomic_rollback (s : FavState) (ids : List String)
    (p : Option String) :
    (addFavorites s ids (.fail p)).2.1.favorites = s.favorites ∧
    (addFavorites s ids (.fail p)).2.1.favoriteImages = s.favoriteImages ∧
    (addFavorites s ids (.fail p)).2.2.success = false ∧
    (removeFavorites s ids (.fail p)).2.1.favorites = s.favorites ∧
    (removeFavorites s ids (.fail p)).2.1.favoriteImages = s.favoriteImages ∧
    (removeFavorites s ids (.fail p)).2.2.success = false :=
  ⟨rfl, rfl, rfl, rfl, rfl, rfl⟩

/-- C10: for every non-empty id list, deleteImages resolves with success and
removes every listed id from the images list, clears the selection set and
leaves selection mode — under every behaviour of the individual remote
delete calls, including all of them failing — because the concurrency
limiter captures each task error into its slot and never rejects, leaving
the catch branch unreachable. -/
theorem deleteImages_always_succeeds (s : ImgState) (ids : List String)
    (remote : String → Except String Unit) (_hne : ids ≠ []) :
    deleteImages s ids remote =
      ({ images := s.images.filter (fun img => !(ids.contains img.id)),
         selectedImages := ∅, isSelectionMode := false,
         isLoading := false, error := none }, ⟨true, none⟩) := rfl

/-- Witness for C10: deleting one of two images with a remote call that
rejects still succeeds and filters the image out. -/
theorem deleteImages_always_succeeds_witness :
    deleteImages ⟨[⟨"x"⟩, ⟨"y"⟩], {"x"}, true, false, none⟩ ["x"]
        (fun _ => .error "boom") =
      (⟨[⟨"y"⟩], ∅, false, false, none⟩, ⟨true, none⟩) := by
  have h := deleteImages_always_succeeds
    ⟨[⟨"x"⟩, ⟨"y"⟩], {"x"}, true, false, none⟩ ["x"]
    (fun _ => .error "boom") (by decide)
  rw [h]
  decide

/-! ### Helper lemmas for the batch machine -/

theorem pLe_refl (a : Option ℤ) : pLe a a := by
  intro x y hx hy
  rw [hx] at hy
  injection hy with h
  omega

theorem pLe_of_le {x y : ℤ} (h : x ≤ y) : pLe (some x) (some y) := by
  intro a b ha hb
  injection ha with ha; injection hb with hb
  omega

theorem pLe_trans {a c : Option ℤ} {z : ℤ} (h1 : pLe a (some z))
    (h2 : pLe (some z) c) : pLe a c := by
  intro x y hx hy
  exact le_trans (h1 x z hx rfl) (h2 z y rfl hy)

theorem min99_some (u : ℚ) {T : ℚ} (hT : T ≠ 0) :
    ∃ z, min99 (totalPercent u T) = some z ∧ z ≤ 99 := by
  refine ⟨min (jsRound (u / T * 100)) 99, ?_, min_le_right _ _⟩
  simp [totalPercent, min99, hT]

theorem minTp_mono {u u' T : ℚ} (hT : 0 < T) (h : u ≤ u') :
    pLe (min99 (totalPercent u T)) (min99 (totalPercent u' T)) := by
  have hT0 : T ≠ 0 := ne_of_gt hT
  simp only [totalPercent, min99, if_neg hT0]
  refine pLe_of_le ?_
  have hdiv : u / T ≤ u' / T := by gcongr
  have hmul : u / T * 100 ≤ u' / T * 100 :=
    mul_le_mul_of_nonneg_right hdiv (by norm_num)
  have hr : jsRound (u / T * 100) ≤ jsRound (u' / T * 100) :=
    Int.floor_le_floor (by linarith)
  exact min_le_min hr (le_refl 99)

theorem countP_isSome_set {β : Type} (l : List (Option β)) :
    ∀ (i : Nat) (b : β), l.get? i = some none →
    (l.set i (some b)).countP (fun o => o.isSome) =
      l.countP (fun o => o.isSome) + 1 := by
  induction l with
  | nil => intro i b h; simp at h
  | cons x xs ih =>
    intro i b h
    cases i with
    | zero =>
      simp only [List.get?] at h
      injection h with h
      subst h
      simp [List.set, List.countP_cons]
    | succ m =>
      simp only [List.set, List.countP_cons]
      rw [ih m b (by simpa using h)]
      omega

theorem getD_replicate {β : Type} (a d : β) :
    ∀ (n i : Nat), (List.replicate n a).getD i d = if i < n then a else d := by
  intro n
  induction n with
  | zero => intro i; simp
  | succ m ih =>
    intro i
    cases i with
    | zero => simp [List.replicate, List.getD]
    | succ k =>
      have h1 : (List.replicate (m + 1) a).getD (k + 1) d =
          (List.replicate m a).getD k d := rfl
      rw [h1, ih k]
      by_cases h : k < m
      · rw [if_pos h, if_pos (by omega)]
      · rw [if_neg h, if_neg (by omega)]

theorem mem_of_getLast? {β : Type} {l : List β} {x : β}
    (h : l.getLast? = some x) : x ∈ l := by
  induction l with
  | nil => simp at h
  | cons a as ih =>
    cases as with
    | nil =>
      simp [List.getLast?] at h
      simp [h]
    | cons b bs =>
      rw [List.getLast?_cons_cons] at h
      exact List.mem_cons_of_mem a (ih h)

theorem throttleFlush_snd {α : Type} (st : Throttle α) :
    (throttleFlush st).2 = st.lastArgs := by
  obtain ⟨lc, la, ta⟩ := st
  cases la <;> rfl

theorem no_running_of_complete {α : Type} {sizes : List Nat}
    {scripts : List (Script α)} {s : BState α}
    (hInv : BInvM sizes scripts s) (hc : s.completed = scripts.length) :
    ∀ w i rest, s.workers.get? w ≠ some (.running i rest) := by
  intro w i rest hw
  obtain ⟨hic, _, hslot, _⟩ := hInv.runs w i rest hw
  have hcur := hInv.curLe
  have hlen : i < s.results.length := by
    rw [hInv.resLen]; omega
  have hcount : s.results.countP (fun o => o.isSome) = s.results.length := by
    rw [← hInv.compl, hc, hInv.resLen]
  have hall := List.countP_eq_length.mp hcount
  have h1 : s.results[i] = none := by
    rw [← List.getD_eq_getElem s.results none hlen]; exact hslot
  have h2 := List.getElem_mem hlen
  rw [h1] at h2
  have := hall none h2
  simp at this

theorem initB_invM {α : Type} (sizes : List Nat) (scripts : List (Script α))
    (K : Nat) : BInvM sizes scripts (initB α sizes scripts.length K) := by
  refine ⟨by simp [initB], by simp [initB], by simp [initB], ?_, ?_, ?_, ?_,
    ?_, ?_, by simp [initB], by simp [initB], ?_, fun _ => rfl⟩
  · simp only [initB]
    rw [eq_comm, List.countP_eq_zero]
    intro a ha
    rw [List.eq_of_mem_replicate ha]
    simp
  · intro i _
    simp only [initB]
    rw [getD_replicate]
    split <;> rfl
  · intro i _
    simp only [initB]
    rw [getD_replicate]
    split <;> rfl
  · intro i
    simp only [initB]
    rw [getD_replicate]
    refine ⟨?_, ?_⟩ <;> split <;>
      first
        | exact le_refl 0
        | exact Nat.cast_nonneg _
  · intro w i rest hw
    simp only [initB] at hw
    have := List.eq_of_mem_replicate (mem_of_get? hw)
    exact absurd this (by simp)
  · intro w w' i rest i' rest' hne hw hw'
    simp only [initB] at hw
    have := List.eq_of_mem_replicate (mem_of_get? hw)
    exact absurd this (by simp)
  · intro la hla
    simp [initB, throttleInit] at hla

theorem runFold_inv {α : Type} (sizes : List Nat) (scripts : List (Script α))
    (P : BState α → Prop)
    (hstep : ∀ s a s', P s → bstep sizes scripts s a = some s' → P s') :
    ∀ (acts : List BAct) (s0 s : BState α), P s0 →
    acts.foldlM (fun s a => bstep sizes scripts s a) s0 = some s → P s := by
  intro acts
  induction acts with
  | nil => intro s0 s h0 hrun; simp at hrun; rwa [← hrun]
  | cons a rest ih =>
    intro s0 s h0 hrun
    simp only [List.foldlM_cons] at hrun
    cases hstep1 : bstep sizes scripts s0 a with
    | none => rw [hstep1] at hrun; exact absurd hrun (by simp)
    | some s1 =>
      rw [hstep1] at hrun
      exact ih s1 s (hstep s0 a s1 h0 hstep1) hrun

theorem throttleCall_lastArgs {α : Type} (d : Nat) (st : Throttle α)
    (t : Nat) (a : α) : (throttleCall d st t a).1.lastArgs = some a := by
  unfold throttleCall
  dsimp only
  split_ifs <;> rfl

theorem throttleCall_fired {α : Type} (d : Nat) (st : Throttle α)
    (t : Nat) (a : α) :
    (throttleCall d st t a).2 = none ∨ (throttleCall d st t a).2 = some a := by
  unfold throttleCall
  dsimp only
  split_ifs <;> simp

theorem invM_tick {α : Type} {sizes : List Nat} {scripts : List (Script α)}
    {s : BState α} (hInv : BInvM sizes scripts s) (t : Nat) :
    BInvM sizes scripts { s with time := t } :=
  ⟨hInv.resLen, hInv.fpLen, hInv.curLe, hInv.compl, hInv.resNew, hInv.fpNew,
    hInv.fpBound, hInv.runs, hInv.dist, hInv.emitOk, hInv.chain, hInv.lastOk,
    hInv.lastNone⟩

theorem invM_timer {α : Type} {sizes : List Nat} {scripts : List (Script α)}
    {s : BState α} (hInv : BInvM sizes scripts s) :
    BInvM sizes scripts
      { s with thr := (throttleTimerFire s.thr s.time).1,
               emitted := s.emitted ++ (throttleTimerFire s.thr s.time).2.toList } := by
  cases hla : s.thr.lastArgs with
  | none =>
    have hE := hInv.lastNone hla
    have hfire : throttleTimerFire s.thr s.time =
        ((⟨s.time, none, none⟩ : Throttle (PEvent α)), none) := by
      unfold throttleTimerFire
      rw [hla]
    rw [hfire]
    refine ⟨hInv.resLen, hInv.fpLen, hInv.curLe, hInv.compl, hInv.resNew,
      hInv.fpNew, hInv.fpBound, hInv.runs, hInv.dist, ?_, ?_, ?_, ?_⟩
    · intro e he
      exact hInv.emitOk e (by simpa using he)
    · simpa using hInv.chain
    · intro la hla'
      simp only at hla'
      exact absurd hla' (by simp)
    · intro _
      simp [hE]
  | some la =>
    have hfire : throttleTimerFire s.thr s.time =
        ((⟨s.time, some la, none⟩ : Throttle (PEvent α)), some la) := by
      unfold throttleTimerFire
      rw [hla]
    rw [hfire]
    obtain ⟨hm2, hm2c, h100, _⟩ := hInv.lastOk la hla
    refine ⟨hInv.resLen, hInv.fpLen, hInv.curLe, hInv.compl, hInv.resNew,
      hInv.fpNew, hInv.fpBound, hInv.runs, hInv.dist, ?_, ?_, ?_, ?_⟩
    · intro e he
      simp only [Option.toList, List.mem_append] at he
      rcases he with he | he
      · exact hInv.emitOk e he
      · have : e = la := by simpa using he
        subst this
        exact ⟨hm2c, h100⟩
    · refine List.chain'_append.mpr ⟨hInv.chain, by simp, ?_⟩
      intro x hx y hy
      have hxm : x ∈ s.emitted := mem_of_getLast? hx
      have hym : y = la := by
        simp only [Option.toList, List.head?] at hy
        exact (by simpa using hy : la = y).symm
      subst hym
      exact hm2 x hxm
    · intro la' hla'
      simp only at hla'
      have : la' = la := by injection hla' with h; exact h.symm
      subst this
      obtain ⟨hm2', hm2c', h100', hm3'⟩ := hInv.lastOk la' hla
      refine ⟨?_, hm2c', h100', hm3'⟩
      intro e he
      simp only [Option.toList, List.mem_append] at he
      rcases he with he | he
      · exact hm2' e he
      · have : e = la' := by simpa using he
        subst this
        exact pLe_refl _
    · intro h
      simp only at h
      exact absurd h (by simp)

theorem invM_claim {α : Type} {sizes : List Nat} {scripts : List (Script α)}
    {s : BState α} {w : Nat}
    (hmono : ∀ sc ∈ scripts, sc.progress.Pairwise (· ≤ ·) ∧
      ∀ p ∈ sc.progress, 0 ≤ p ∧ p ≤ 100)
    (hInv : BInvM sizes scripts s)
    (hw : s.workers.get? w = some .idle) (hcur : s.cursor < scripts.length) :
    BInvM sizes scripts
      { s with
        cursor := s.cursor + 1,
        workers := s.workers.set w
          (.running s.cursor ((scripts.getD s.cursor (defScript α)).progress)) } := by
  have hwlt : w < s.workers.length := (List.get?_eq_some.mp hw).1
  have hscript : scripts.getD s.cursor (defScript α) ∈ scripts := by
    rw [List.getD_eq_getElem scripts _ hcur]
    exact List.getElem_mem hcur
  refine ⟨hInv.resLen, hInv.fpLen, by dsimp only; omega, hInv.compl, ?_, ?_,
    hInv.fpBound, ?_, ?_, hInv.emitOk, hInv.chain, hInv.lastOk, hInv.lastNone⟩
  · intro i hi
    dsimp only at hi
    exact hInv.resNew i (by omega)
  · intro i hi
    dsimp only at hi
    exact hInv.fpNew i (by omega)
  · intro w' i rest hw'
    dsimp only at hw' ⊢
    by_cases hww : w = w'
    · subst hww
      rw [get?_set_self _ _ _ hwlt] at hw'
      injection hw' with h
      injection h with h1 h2
      subst h1
      subst h2
      refine ⟨by omega, List.suffix_refl _, hInv.resNew s.cursor (le_refl _), ?_⟩
      intro p hp
      rw [hInv.fpNew s.cursor (le_refl _)]
      have hp0 : 0 ≤ p := ((hmono _ hscript).2 p hp).1
      positivity
    · rw [get?_set_ne _ _ _ _ hww] at hw'
      obtain ⟨h1, h2, h3, h4⟩ := hInv.runs w' i rest hw'
      exact ⟨by omega, h2, h3, h4⟩
  · intro w1 w2 i rest i' rest' hne h1 h2
    dsimp only at h1 h2
    by_cases hw1 : w = w1
    · subst hw1
      rw [get?_set_self _ _ _ hwlt] at h1
      injection h1 with h
      injection h with hi _
      subst hi
      rw [get?_set_ne _ _ _ _ (fun he => hne he)] at h2
      have := (hInv.runs w2 i' rest' h2).1
      omega
    · rw [get?_set_ne _ _ _ _ hw1] at h1
      by_cases hw2 : w = w2
      · subst hw2
        rw [get?_set_self _ _ _ hwlt] at h2
        injection h2 with h
        injection h with hi _
        subst hi
        have := (hInv.runs w1 i rest h1).1
        omega
      · rw [get?_set_ne _ _ _ _ hw2] at h2
        exact hInv.dist w1 w2 i rest i' rest' hne h1 h2

theorem invM_exit {α : Type} {sizes : List Nat} {scripts : List (Script α)}
    {s : BState α} {w : Nat} (hInv : BInvM sizes scripts s)
    (hw : s.workers.get? w = some .idle) :
    BInvM sizes scripts { s with workers := s.workers.set w .done } := by
  have hwlt : w < s.workers.length := (List.get?_eq_some.mp hw).1
  refine ⟨hInv.resLen, hInv.fpLen, hInv.curLe, hInv.compl, hInv.resNew,
    hInv.fpNew, hInv.fpBound, ?_, ?_, hInv.emitOk, hInv.chain, hInv.lastOk,
    hInv.lastNone⟩
  · intro w' i rest hw'
    dsimp only at hw'
    by_cases hww : w = w'
    · subst hww
      rw [get?_set_self _ _ _ hwlt] at hw'
      exact absurd hw' (by simp)
    · rw [get?_set_ne _ _ _ _ hww] at hw'
      exact hInv.runs w' i rest hw'
  · intro w1 w2 i rest i' rest' hne h1 h2
    dsimp only at h1 h2
    by_cases hw1 : w = w1
    · subst hw1
      rw [get?_set_self _ _ _ hwlt] at h1
      exact absurd h1 (by simp)
    · rw [get?_set_ne _ _ _ _ hw1] at h1
      by_cases hw2 : w = w2
      · subst hw2
        rw [get?_set_self _ _ _ hwlt] at h2
        exact absurd h2 (by simp)
      · rw [get?_set_ne _ _ _ _ hw2] at h2
        exact hInv.dist w1 w2 i rest i' rest' hne h1 h2

theorem get?_of_lt {β : Type} (l : List β) (d : β) :
    ∀ i, i < l.length → l.get? i = some (l.getD i d) := by
  induction l with
  | nil => intro i h; simp at h
  | cons x xs ih =>
    intro i h
    cases i with
    | zero => rfl
    | succ m => exact ih m (by simpa using h)

theorem invM_progress {α : Type} {sizes : List Nat} {scripts : List (Script α)}
    {s : BState α} {w i : Nat} {p : ℚ} {rest : List ℚ}
    (hlen : sizes.length = scripts.length) (hT : 0 < totalQ sizes)
    (hmono : ∀ sc ∈ scripts, sc.progress.Pairwise (· ≤ ·) ∧
      ∀ q ∈ sc.progress, 0 ≤ q ∧ q ≤ 100)
    (hInv : BInvM sizes scripts s)
    (hw : s.workers.get? w = some (.running i (p :: rest))) :
    BInvM sizes scripts
      { s with
        fileProgress := s.fileProgress.set i (newFileProgress sizes i p),
        uploaded := progressUploaded sizes s i p,
        thr := (throttleCall 100 s.thr s.time
          (progressEv α sizes scripts s i p)).1,
        emitted := s.emitted ++ (throttleCall 100 s.thr s.time
          (progressEv α sizes scripts s i p)).2.toList,
        workers := s.workers.set w (.running i rest) } := by
  have hwlt : w < s.workers.length := (List.get?_eq_some.mp hw).1
  obtain ⟨hic, hsuf, hslot, hbound⟩ := hInv.runs w i (p :: rest) hw
  have hiN : i < scripts.length := lt_of_lt_of_le hic hInv.curLe
  have hifp : i < s.fileProgress.length := by
    rw [hInv.fpLen, hlen]; exact hiN
  have hscript : scripts.getD i (defScript α) ∈ scripts := by
    rw [List.getD_eq_getElem scripts _ hiN]
    exact List.getElem_mem hiN
  have hpmem : p ∈ (scripts.getD i (defScript α)).progress :=
    hsuf.subset (List.mem_cons_self p rest)
  obtain ⟨hp0, hp100⟩ := (hmono _ hscript).2 p hpmem
  have hsize0 : (0 : ℚ) ≤ (sizes.getD i 0 : ℚ) := Nat.cast_nonneg _
  have hnp0 : 0 ≤ newFileProgress sizes i p := by
    unfold newFileProgress; positivity
  have hnple : newFileProgress sizes i p ≤ (sizes.getD i 0 : ℚ) := by
    unfold newFileProgress
    calc (sizes.getD i 0 : ℚ) * p / 100
        ≤ (sizes.getD i 0 : ℚ) * 100 / 100 := by gcongr
      _ = (sizes.getD i 0 : ℚ) := by ring
  have hfple : s.fileProgress.getD i 0 ≤ newFileProgress sizes i p :=
    hbound p (List.mem_cons_self p rest)
  have hup : s.uploaded ≤ progressUploaded sizes s i p := by
    unfold progressUploaded; linarith
  have hTne : totalQ sizes ≠ 0 := ne_of_gt hT
  obtain ⟨zev, hzev, hz99⟩ :=
    min99_some (progressUploaded sizes s i p) hTne
  have hevp : (progressEv α sizes scripts s i p).percent = some zev := hzev
  have hevOk : (∃ z, (progressEv α sizes scripts s i p).percent = some z ∧
      z ≤ 100) ∧ ((progressEv α sizes scripts s i p).percent = some 100 →
      (progressEv α sizes scripts s i p).completed = scripts.length) := by
    refine ⟨⟨zev, hevp, by omega⟩, ?_⟩
    intro h100
    rw [hevp] at h100
    injection h100 with h
    omega
  have hlaev : ∀ la, s.thr.lastArgs = some la →
      pLe la.percent (progressEv α sizes scripts s i p).percent := by
    intro la hla
    obtain ⟨_, ⟨z', hz', hz'100⟩, _, hm3⟩ := hInv.lastOk la hla
    rcases hm3 with hm3 | ⟨_, hcompl⟩
    · obtain ⟨zc, hzc, _⟩ := min99_some s.uploaded hTne
      have h1 : pLe la.percent (some zc) := by rw [← hzc]; exact hm3
      have h2 : pLe (some zc) (progressEv α sizes scripts s i p).percent := by
        rw [hevp, ← hzev, ← hzc]
        exact minTp_mono hT hup
      exact pLe_trans h1 h2
    · exact absurd hw (no_running_of_complete hInv hcompl w i (p :: rest))
  have hEev : ∀ e ∈ s.emitted,
      pLe e.percent (progressEv α sizes scripts s i p).percent := by
    intro e he
    cases hla : s.thr.lastArgs with
    | none => rw [hInv.lastNone hla] at he; simp at he
    | some la =>
      obtain ⟨hm2, ⟨z', hz', _⟩, _, _⟩ := hInv.lastOk la hla
      have h1 : pLe e.percent (some z') := by rw [← hz']; exact hm2 e he
      have h2 : pLe (some z') (progressEv α sizes scripts s i p).percent := by
        rw [← hz']; exact hlaev la hla
      exact pLe_trans h1 h2
  refine ⟨hInv.resLen, by simp [hInv.fpLen], hInv.curLe, hInv.compl,
    hInv.resNew, ?_, ?_, ?_, ?_, ?_, ?_, ?_, ?_⟩
  · intro j hj
    dsimp only at hj ⊢
    rw [getD_set_ne _ _ _ _ _ (by omega : i ≠ j)]
    exact hInv.fpNew j hj
  · intro j
    dsimp only
    by_cases hji : j = i
    · subst hji
      rw [getD_set_self _ _ _ _ hifp]
      exact ⟨hnp0, hnple⟩
    · rw [getD_set_ne _ _ _ _ _ (fun he => hji he.symm)]
      exact hInv.fpBound j
  · intro w' j rest' hw'
    dsimp only at hw' ⊢
    by_cases hww : w = w'
    · subst hww
      rw [get?_set_self _ _ _ hwlt] at hw'
      injection hw' with h
      injection h with h1 h2
      subst h1
      subst h2
      refine ⟨hic, (List.suffix_cons p rest).trans hsuf, hslot, ?_⟩
      intro q hq
      rw [getD_set_self _ _ _ _ hifp]
      have hpair : (p :: rest).Pairwise (· ≤ ·) :=
        List.Pairwise.sublist hsuf.sublist (hmono _ hscript).1
      have hpq : p ≤ q := (List.pairwise_cons.mp hpair).1 q hq
      unfold newFileProgress
      gcongr
    · rw [get?_set_ne _ _ _ _ hww] at hw'
      obtain ⟨h1, h2, h3, h4⟩ := hInv.runs w' j rest' hw'
      have hji : j ≠ i := hInv.dist w' w j rest' i (p :: rest)
        (fun he => hww he.symm) hw' hw
      refine ⟨h1, h2, h3, ?_⟩
      intro q hq
      rw [getD_set_ne _ _ _ _ _ (fun he => hji he.symm)]
      exact h4 q hq
  · intro w1 w2 j rest1 j' rest2 hne h1 h2
    dsimp only at h1 h2
    by_cases hw1 : w = w1
    · subst hw1
      rw [get?_set_self _ _ _ hwlt] at h1
      injection h1 with h
      injection h with hj hr
      subst hj
      rw [get?_set_ne _ _ _ _ (fun he => hne he)] at h2
      exact hInv.dist w w2 i (p :: rest) j' rest2 hne hw h2
    · rw [get?_set_ne _ _ _ _ hw1] at h1
      by_cases hw2 : w = w2
      · subst hw2
        rw [get?_set_self _ _ _ hwlt] at h2
        injection h2 with h
        injection h with hj hr
        subst hj
        exact hInv.dist w1 w j rest1 i (p :: rest) hne h1 hw
      · rw [get?_set_ne _ _ _ _ hw2] at h2
        exact hInv.dist w1 w2 j rest1 j' rest2 hne h1 h2
  · intro e he
    dsimp only at he
    rcases throttleCall_fired 100 s.thr s.time
      (progressEv α sizes scripts s i p) with hf | hf
    · rw [hf] at he
      simp only [Option.toList, List.append_nil] at he
      exact hInv.emitOk e he
    · rw [hf] at he
      simp only [Option.toList, List.mem_append, List.mem_singleton] at he
      rcases he with he | he
      · exact hInv.emitOk e he
      · subst he
        exact hevOk
  · dsimp only
    rcases throttleCall_fired 100 s.thr s.time
      (progressEv α sizes scripts s i p) with hf | hf
    · rw [hf]
      simpa using hInv.chain
    · rw [hf]
      refine List.chain'_append.mpr ⟨hInv.chain, by simp, ?_⟩
      intro x hx y hy
      rw [Option.mem_def] at hx hy
      have hxm : x ∈ s.emitted := mem_of_getLast? hx
      simp only [Option.toList, List.head?] at hy
      injection hy with hy
      subst hy
      exact hEev x hxm
  · intro la' hla'
    dsimp only at hla'
    rw [throttleCall_lastArgs] at hla'
    injection hla' with hla'
    subst hla'
    refine ⟨?_, hevOk.1, hevOk.2, Or.inl ?_⟩
    · intro e he
      dsimp only at he
      rcases throttleCall_fired 100 s.thr s.time
        (progressEv α sizes scripts s i p) with hf | hf
      · rw [hf] at he
        simp only [Option.toList, List.append_nil] at he
        exact hEev e he
      · rw [hf] at he
        simp only [Option.toList, List.mem_append, List.mem_singleton] at he
        rcases he with he | he
        · exact hEev e he
        · subst he
          exact pLe_refl _
    · exact pLe_refl (progressEv α sizes scripts s i p).percent
  · intro h
    dsimp only at h
    rw [throttleCall_lastArgs] at h
    exact absurd h (by simp)

theorem invM_settleOk {α : Type} {sizes : List Nat} {scripts : List (Script α)}
    {s : BState α} {w i : Nat} {r : α}
    (hlen : sizes.length = scripts.length) (hT : 0 < totalQ sizes)
    (hInv : BInvM sizes scripts s)
    (hw : s.workers.get? w = some (.running i [])) :
    BInvM sizes scripts
      { s with
        results := s.results.set i (some (.val r)),
        completed := s.completed + 1,
        fileProgress := s.fileProgress.set i ((sizes.getD i 0 : Nat) : ℚ),
        uploaded := settleUploaded sizes s i,
        thr := (throttleCall 100 s.thr s.time (settleEv sizes scripts s i r)).1,
        emitted := s.emitted ++ (throttleCall 100 s.thr s.time
          (settleEv sizes scripts s i r)).2.toList,
        workers := s.workers.set w .idle } := by
  have hwlt : w < s.workers.length := (List.get?_eq_some.mp hw).1
  obtain ⟨hic, hsuf, hslot, _⟩ := hInv.runs w i [] hw
  have hiN : i < scripts.length := lt_of_lt_of_le hic hInv.curLe
  have hires : i < s.results.length := by rw [hInv.resLen]; exact hiN
  have hifp : i < s.fileProgress.length := by rw [hInv.fpLen, hlen]; exact hiN
  have hsize0 : (0 : ℚ) ≤ (sizes.getD i 0 : ℚ) := Nat.cast_nonneg _
  obtain ⟨hfp0, hfple⟩ := hInv.fpBound i
  have hup : s.uploaded ≤ settleUploaded sizes s i := by
    unfold settleUploaded; linarith
  have hTne : totalQ sizes ≠ 0 := ne_of_gt hT
  have hget : s.results.get? i = some none := by
    rw [get?_of_lt s.results none i hires, hslot]
  have hpdef : (settleEv sizes scripts s i r).percent =
      (if s.completed + 1 = scripts.length then some 100
       else min99 (totalPercent (settleUploaded sizes s i) (totalQ sizes))) :=
    rfl
  have hcdef : (settleEv sizes scripts s i r).completed = s.completed + 1 := rfl
  have hevOk : (∃ z, (settleEv sizes scripts s i r).percent = some z ∧
      z ≤ 100) ∧ ((settleEv sizes scripts s i r).percent = some 100 →
      (settleEv sizes scripts s i r).completed = scripts.length) := by
    by_cases hc : s.completed + 1 = scripts.length
    · exact ⟨⟨100, by rw [hpdef, if_pos hc], le_refl _⟩,
        fun _ => by rw [hcdef]; exact hc⟩
    · obtain ⟨z, hz, hz99⟩ := min99_some (settleUploaded sizes s i) hTne
      have hp : (settleEv sizes scripts s i r).percent = some z := by
        rw [hpdef, if_neg hc]; exact hz
      refine ⟨⟨z, hp, by omega⟩, fun h100 => ?_⟩
      rw [hp] at h100
      injection h100 with h
      omega
  have hlaev : ∀ la, s.thr.lastArgs = some la →
      pLe la.percent (settleEv sizes scripts s i r).percent := by
    intro la hla
    obtain ⟨_, ⟨z', hz', hz'100⟩, _, hm3⟩ := hInv.lastOk la hla
    by_cases hc : s.completed + 1 = scripts.length
    · intro x y hx hy
      rw [hpdef, if_pos hc] at hy
      injection hy with hy
      rw [hz'] at hx
      injection hx with hx
      omega
    · rcases hm3 with hm3 | ⟨_, hcompl⟩
      · obtain ⟨zc, hzc, _⟩ := min99_some s.uploaded hTne
        have h1 : pLe la.percent (some zc) := by rw [← hzc]; exact hm3
        have h2 : pLe (some zc) (settleEv sizes scripts s i r).percent := by
          rw [hpdef, if_neg hc, ← hzc]
          exact minTp_mono hT hup
        exact pLe_trans h1 h2
      · exact absurd hw (no_running_of_complete hInv hcompl w i [])
  have hEev : ∀ e ∈ s.emitted,
      pLe e.percent (settleEv sizes scripts s i r).percent := by
    intro e he
    cases hla : s.thr.lastArgs with
    | none => rw [hInv.lastNone hla] at he; simp at he
    | some la =>
      obtain ⟨hm2, ⟨z', hz', _⟩, _, _⟩ := hInv.lastOk la hla
      exact pLe_trans (by rw [← hz']; exact hm2 e he)
        (by rw [← hz']; exact hlaev la hla)
  refine ⟨by simp [hInv.resLen], by simp [hInv.fpLen], hInv.curLe, ?_,
    ?_, ?_, ?_, ?_, ?_, ?_, ?_, ?_, ?_⟩
  · dsimp only
    rw [countP_isSome_set s.results i (BSlot.val r) hget, ← hInv.compl]
  · intro j hj
    dsimp only at hj ⊢
    rw [getD_set_ne _ _ _ _ _ (by omega : i ≠ j)]
    exact hInv.resNew j hj
  · intro j hj
    dsimp only at hj ⊢
    rw [getD_set_ne _ _ _ _ _ (by omega : i ≠ j)]
    exact hInv.fpNew j hj
  · intro j
    dsimp only
    by_cases hji : j = i
    · subst hji
      rw [getD_set_self _ _ _ _ hifp]
      exact ⟨hsize0, le_refl _⟩
    · rw [getD_set_ne _ _ _ _ _ (fun he => hji he.symm)]
      exact hInv.fpBound j
  · intro w' j rest' hw'
    dsimp only at hw' ⊢
    by_cases hww : w = w'
    · subst hww
      rw [get?_set_self _ _ _ hwlt] at hw'
      exact absurd hw' (by simp)
    · rw [get?_set_ne _ _ _ _ hww] at hw'
      obtain ⟨h1, h2, h3, h4⟩ := hInv.runs w' j rest' hw'
      have hji : j ≠ i := hInv.dist w' w j rest' i []
        (fun he => hww he.symm) hw' hw
      refine ⟨h1, h2, ?_, ?_⟩
      · rw [getD_set_ne _ _ _ _ _ (fun he => hji he.symm)]
        exact h3
      · intro q hq
        rw [getD_set_ne _ _ _ _ _ (fun he => hji he.symm)]
        exact h4 q hq
  · intro w1 w2 j rest1 j' rest2 hne h1 h2
    dsimp only at h1 h2
    by_cases hw1 : w = w1
    · subst hw1
      rw [get?_set_self _ _ _ hwlt] at h1
      exact absurd h1 (by simp)
    · rw [get?_set_ne _ _ _ _ hw1] at h1
      by_cases hw2 : w = w2
      · subst hw2
        rw [get?_set_self _ _ _ hwlt] at h2
        exact absurd h2 (by simp)
      · rw [get?_set_ne _ _ _ _ hw2] at h2
        exact hInv.dist w1 w2 j rest1 j' rest2 hne h1 h2
  · intro e he
    dsimp only at he
    rcases throttleCall_fired 100 s.thr s.time
      (settleEv sizes scripts s i r) with hf | hf
    · rw [hf] at he
      simp only [Option.toList, List.append_nil] at he
      exact hInv.emitOk e he
    · rw [hf] at he
      simp only [Option.toList, List.mem_append, List.mem_singleton] at he
      rcases he with he | he
      · exact hInv.emitOk e he
      · subst he
        exact hevOk
  · dsimp only
    rcases throttleCall_fired 100 s.thr s.time
      (settleEv sizes scripts s i r) with hf | hf
    · rw [hf]
      simpa using hInv.chain
    · rw [hf]
      refine List.chain'_append.mpr ⟨hInv.chain, by simp, ?_⟩
      intro x hx y hy
      rw [Option.mem_def] at hx hy
      have hxm : x ∈ s.emitted := mem_of_getLast? hx
      simp only [Option.toList, List.head?] at hy
      injection hy with hy
      subst hy
      exact hEev x hxm
  · intro la' hla'
    dsimp only at hla'
    rw [throttleCall_lastArgs] at hla'
    injection hla' with hla'
    subst hla'
    refine ⟨?_, hevOk.1, hevOk.2, ?_⟩
    · intro e he
      dsimp only at he
      rcases throttleCall_fired 100 s.thr s.time
        (settleEv sizes scripts s i r) with hf | hf
      · rw [hf] at he
        simp only [Option.toList, List.append_nil] at he
        exact hEev e he
      · rw [hf] at he
        simp only [Option.toList, List.mem_append, List.mem_singleton] at he
        rcases he with he | he
        · exact hEev e he
        · subst he
          exact pLe_refl _
    · by_cases hc : s.completed + 1 = scripts.length
      · exact Or.inr ⟨by rw [hpdef, if_pos hc], hc⟩
      · refine Or.inl ?_
        dsimp only
        rw [hpdef, if_neg hc]
        exact pLe_refl _
  · intro h
    dsimp only at h
    rw [throttleCall_lastArgs] at h
    exact absurd h (by simp)

theorem invM_settleErr {α : Type} {sizes : List Nat}
    {scripts : List (Script α)} {s : BState α} {w i : Nat} {m : String}
    (hlen : sizes.length = scripts.length) (hT : 0 < totalQ sizes)
    (hInv : BInvM sizes scripts s)
    (hw : s.workers.get? w = some (.running i [])) :
    BInvM sizes scripts
      { s with
        results := s.results.set i
          (some (.failSlot (jsOrS (some m) genericUploadError))),
        completed := s.completed + 1,
        fileProgress := s.fileProgress.set i ((sizes.getD i 0 : Nat) : ℚ),
        uploaded := settleUploaded sizes s i,
        workers := s.workers.set w .idle } := by
  have hwlt : w < s.workers.length := (List.get?_eq_some.mp hw).1
  obtain ⟨hic, hsuf, hslot, _⟩ := hInv.runs w i [] hw
  have hiN : i < scripts.length := lt_of_lt_of_le hic hInv.curLe
  have hires : i < s.results.length := by rw [hInv.resLen]; exact hiN
  have hifp : i < s.fileProgress.length := by rw [hInv.fpLen, hlen]; exact hiN
  have hsize0 : (0 : ℚ) ≤ (sizes.getD i 0 : ℚ) := Nat.cast_nonneg _
  obtain ⟨hfp0, hfple⟩ := hInv.fpBound i
  have hup : s.uploaded ≤ settleUploaded sizes s i := by
    unfold settleUploaded; linarith
  have hTne : totalQ sizes ≠ 0 := ne_of_gt hT
  have hget : s.results.get? i = some none := by
    rw [get?_of_lt s.results none i hires, hslot]
  refine ⟨by simp [hInv.resLen], by simp [hInv.fpLen], hInv.curLe, ?_,
    ?_, ?_, ?_, ?_, ?_, hInv.emitOk, hInv.chain, ?_, hInv.lastNone⟩
  · dsimp only
    rw [countP_isSome_set s.results i _ hget, ← hInv.compl]
  · intro j hj
    dsimp only at hj ⊢
    rw [getD_set_ne _ _ _ _ _ (by omega : i ≠ j)]
    exact hInv.resNew j hj
  · intro j hj
    dsimp only at hj ⊢
    rw [getD_set_ne _ _ _ _ _ (by omega : i ≠ j)]
    exact hInv.fpNew j hj
  · intro j
    dsimp only
    by_cases hji : j = i
    · subst hji
      rw [getD_set_self _ _ _ _ hifp]
      exact ⟨hsize0, le_refl _⟩
    · rw [getD_set_ne _ _ _ _ _ (fun he => hji he.symm)]
      exact hInv.fpBound j
  · intro w' j rest' hw'
    dsimp only at hw' ⊢
    by_cases hww : w = w'
    · subst hww
      rw [get?_set_self _ _ _ hwlt] at hw'
      exact absurd hw' (by simp)
    · rw [get?_set_ne _ _ _ _ hww] at hw'
      obtain ⟨h1, h2, h3, h4⟩ := hInv.runs w' j rest' hw'
      have hji : j ≠ i := hInv.dist w' w j rest' i []
        (fun he => hww he.symm) hw' hw
      refine ⟨h1, h2, ?_, ?_⟩
      · rw [getD_set_ne _ _ _ _ _ (fun he => hji he.symm)]
        exact h3
      · intro q hq
        rw [getD_set_ne _ _ _ _ _ (fun he => hji he.symm)]
        exact h4 q hq
  · intro w1 w2 j rest1 j' rest2 hne h1 h2
    dsimp only at h1 h2
    by_cases hw1 : w = w1
    · subst hw1
      rw [get?_set_self _ _ _ hwlt] at h1
      exact absurd h1 (by simp)
    · rw [get?_set_ne _ _ _ _ hw1] at h1
      by_cases hw2 : w = w2
      · subst hw2
        rw [get?_set_self _ _ _ hwlt] at h2
        exact absurd h2 (by simp)
      · rw [get?_set_ne _ _ _ _ hw2] at h2
        exact hInv.dist w1 w2 j rest1 j' rest2 hne h1 h2
  · intro la hla
    dsimp only at hla ⊢
    obtain ⟨hm2, hm2c, h100, hm3⟩ := hInv.lastOk la hla
    refine ⟨hm2, hm2c, h100, ?_⟩
    rcases hm3 with hm3 | ⟨_, hcompl⟩
    · refine Or.inl ?_
      obtain ⟨zc, hzc, _⟩ := min99_some s.uploaded hTne
      have h1 : pLe la.percent (some zc) := by rw [← hzc]; exact hm3
      have h2 : pLe (some zc)
          (min99 (totalPercent (settleUploaded sizes s i) (totalQ sizes))) := by
        rw [← hzc]
        exact minTp_mono hT hup
      exact pLe_trans h1 h2
    · exact absurd hw (no_running_of_complete hInv hcompl w i [])

theorem bstep_invM {α : Type} {sizes : List Nat} {scripts : List (Script α)}
    (hlen : sizes.length = scripts.length) (hT : 0 < totalQ sizes)
    (hmono : ∀ sc ∈ scripts, sc.progress.Pairwise (· ≤ ·) ∧
      ∀ q ∈ sc.progress, 0 ≤ q ∧ q ≤ 100)
    {s s' : BState α} {a : BAct}
    (hInv : BInvM sizes scripts s) (hstep : bstep sizes scripts s a = some s') :
    BInvM sizes scripts s' := by
  cases a with
  | tick t =>
    simp only [bstep] at hstep
    by_cases ht : s.time ≤ t
    · rw [if_pos ht] at hstep
      simp only [Option.some.injEq] at hstep
      subst hstep
      exact invM_tick hInv t
    · rw [if_neg ht] at hstep
      exact absurd hstep (by simp)
  | timer =>
    simp only [bstep] at hstep
    cases hta : s.thr.timeoutAt with
    | none => rw [hta] at hstep; exact absurd hstep (by simp)
    | some tf =>
      rw [hta] at hstep
      by_cases ht : tf ≤ s.time
      · simp only [if_pos ht, Option.some.injEq] at hstep
        subst hstep
        exact invM_timer hInv
      · simp only [if_neg ht] at hstep
        exact absurd hstep (by simp)
  | sched w =>
    simp only [bstep] at hstep
    cases hw : s.workers.get? w with
    | none => rw [hw] at hstep; exact absurd hstep (by simp)
    | some st =>
      rw [hw] at hstep
      cases st with
      | done => exact absurd hstep (by simp)
      | idle =>
        by_cases hcur : s.cursor < scripts.length
        · simp only [if_pos hcur, Option.some.injEq] at hstep
          subst hstep
          exact invM_claim hmono hInv hw hcur
        · simp only [if_neg hcur, Option.some.injEq] at hstep
          subst hstep
          exact invM_exit hInv hw
      | running i rest =>
        cases rest with
        | cons p rest' =>
          simp only [Option.some.injEq] at hstep
          subst hstep
          exact invM_progress hlen hT hmono hInv hw
        | nil =>
          dsimp only at hstep
          cases hout : (scripts.getD i (defScript α)).outcome with
          | ok r =>
            rw [hout] at hstep
            simp only [Option.some.injEq] at hstep
            subst hstep
            exact invM_settleOk hlen hT hInv hw
          | error m =>
            rw [hout] at hstep
            simp only [Option.some.injEq] at hstep
            subst hstep
            exact invM_settleErr hlen hT hInv hw

theorem runB_invM {α : Type} {sizes : List Nat} {scripts : List (Script α)}
    (hlen : sizes.length = scripts.length) (hT : 0 < totalQ sizes)
    (hmono : ∀ sc ∈ scripts, sc.progress.Pairwise (· ≤ ·) ∧
      ∀ q ∈ sc.progress, 0 ≤ q ∧ q ≤ 100)
    {K : Nat} {acts : List BAct} {s : BState α}
    (hrun : runB sizes scripts K acts = some s) : BInvM sizes scripts s :=
  runFold_inv sizes scripts _
    (fun _ _ _ h hs => bstep_invM hlen hT hmono h hs) acts _ s
    (initB_invM sizes scripts K) hrun

theorem getLast?_append_single {β : Type} :
    ∀ (l : List β) (x : β), (l ++ [x]).getLast? = some x := by
  intro l x
  induction l with
  | nil => rfl
  | cons a as ih =>
    rw [List.cons_append]
    cases has : as ++ [x] with
    | nil => exact absurd has (by simp)
    | cons b bs =>
      rw [List.getLast?_cons_cons, ← has, ih]

/-- C6 as amended: over the consumer-visible event stream of one complete
batch run — provided each task reports non-decreasing per-file percents
within [0, 100] and the batch's total size is positive — percent is
monotonically non-decreasing and always a number (never NaN), every event
carries percent at most 100, an event with percent exactly 100 always has
completedCount equal to the task count (it is built only once every task
has settled), events whose completedCount is below the task count are
capped at 99, and the final emitted event reports exactly 100.  However —
contrary to the original claim — percent 100 is not restricted to the final
event: the last completion call, its flush replay and the forced terminal
callback can all deliver percent-100 events. -/
theorem batchProgress_stream_properties {α : Type} (sizes : List Nat)
    (scripts : List (Script α)) (K : Nat) (acts : List BAct)
    (E : List (PEvent α))
    (hlen : sizes.length = scripts.length) (hT : 0 < totalQ sizes)
    (hmono : ∀ sc ∈ scripts, sc.progress.Pairwise (· ≤ ·) ∧
      ∀ q ∈ sc.progress, 0 ≤ q ∧ q ≤ 100)
    (hrun : runBatchEvents sizes scripts K acts = some E) :
    List.Chain' (fun a b => pLe a.percent b.percent) E ∧
    (∀ e ∈ E, ∃ z, e.percent = some z ∧ z ≤ 100) ∧
    (∀ e ∈ E, e.percent = some 100 → e.completed = scripts.length) ∧
    (∀ e ∈ E, e.completed < scripts.length →
      ∃ z, e.percent = some z ∧ z ≤ 99) ∧
    (∃ e, E.getLast? = some e ∧ e.percent = some 100 ∧
      e.completed = scripts.length) := by
  unfold runBatchEvents at hrun
  cases hrunB : runB sizes scripts K acts with
  | none => rw [hrunB] at hrun; exact absurd hrun (by simp)
  | some s =>
    rw [hrunB] at hrun
    dsimp only at hrun
    by_cases hdone : s.workers.all BWorker.isDone
    · rw [if_pos hdone] at hrun
      injection hrun with hrun
      subst hrun
      have hInv := runB_invM hlen hT hmono hrunB
      have hall : ∀ e ∈ finishEvents scripts s,
          (∃ z, e.percent = some z ∧ z ≤ 100) ∧
          (e.percent = some 100 → e.completed = scripts.length) := by
        intro e he
        unfold finishEvents at he
        rw [throttleFlush_snd] at he
        simp only [List.append_assoc, List.mem_append,
          List.mem_singleton] at he
        rcases he with he | he | he
        · exact hInv.emitOk e he
        · cases hla : s.thr.lastArgs with
          | none => rw [hla] at he; simp at he
          | some la =>
            rw [hla] at he
            simp only [Option.toList, List.mem_singleton] at he
            subst he
            obtain ⟨_, hb, hc, _⟩ := hInv.lastOk e hla
            exact ⟨hb, hc⟩
        · subst he
          exact ⟨⟨100, rfl, le_refl _⟩, fun _ => rfl⟩
      have hchain : List.Chain' (fun a b => pLe a.percent b.percent)
          (finishEvents scripts s) := by
        unfold finishEvents
        rw [throttleFlush_snd]
        refine List.chain'_append.mpr ⟨?_, by simp, ?_⟩
        · cases hla : s.thr.lastArgs with
          | none => simpa using hInv.chain
          | some la =>
            refine List.chain'_append.mpr ⟨hInv.chain, by simp, ?_⟩
            intro x hx y hy
            rw [Option.mem_def] at hx hy
            have hxm := mem_of_getLast? hx
            simp only [Option.toList, List.head?] at hy
            injection hy with hy
            subst hy
            exact (hInv.lastOk la hla).1 x hxm
        · intro x hx y hy
          rw [Option.mem_def] at hx hy
          have hxm := mem_of_getLast? hx
          simp only [List.head?] at hy
          injection hy with hy
          subst hy
          intro a b ha hb
          injection hb with hb
          have hx100 : ∃ z, x.percent = some z ∧ z ≤ 100 := by
            rcases List.mem_append.mp hxm with hxe | hxl
            · exact (hInv.emitOk x hxe).1
            · cases hla : s.thr.lastArgs with
              | none => rw [hla] at hxl; simp at hxl
              | some la =>
                rw [hla] at hxl
                simp only [Option.toList, List.mem_singleton] at hxl
                subst hxl
                exact (hInv.lastOk x hla).2.1
          obtain ⟨z, hz, hz100⟩ := hx100
          rw [hz] at ha
          injection ha with ha
          omega
      refine ⟨hchain, fun e he => (hall e he).1, fun e he => (hall e he).2,
        ?_, ?_⟩
      · intro e he hlt
        obtain ⟨z, hz, hz100⟩ := (hall e he).1
        refine ⟨z, hz, ?_⟩
        by_contra hgt
        push_neg at hgt
        have hz100' : z = 100 := by omega
        have := (hall e he).2 (by rw [hz, hz100'])
        omega
      · refine ⟨⟨scripts.length, scripts.length, some 100,
          scripts.length - 1,
          s.results.getD (s.results.length - 1) none⟩, ?_, rfl, rfl⟩
        unfold finishEvents
        exact getLast?_append_single _ _
    · rw [if_neg hdone] at hrun
      exact absurd hrun (by simp)

theorem invZ_of_call {α : Type} {scripts : List (Script α)}
    {s s' : BState α} (hInv : BInvZ scripts s) (ev : PEvent α) {d t : Nat}
    (hev : ev.percent = none ∨
      (ev.percent = some 100 ∧ ev.completed = scripts.length))
    (hemit : s'.emitted = s.emitted ++ (throttleCall d s.thr t ev).2.toList)
    (hthr : s'.thr = (throttleCall d s.thr t ev).1) :
    BInvZ scripts s' := by
  refine ⟨?_, ?_⟩
  · intro e he
    rw [hemit] at he
    rcases throttleCall_fired d s.thr t ev with hf | hf
    · rw [hf] at he
      simp only [Option.toList, List.append_nil] at he
      exact hInv.emitZ e he
    · rw [hf] at he
      simp only [Option.toList, List.mem_append, List.mem_singleton] at he
      rcases he with he | he
      · exact hInv.emitZ e he
      · subst he
        exact hev
  · intro la' hla'
    rw [hthr, throttleCall_lastArgs] at hla'
    injection hla' with h
    subst h
    exact hev

theorem bstep_invZ {α : Type} {sizes : List Nat} {scripts : List (Script α)}
    (hT0 : totalQ sizes = 0) {s s' : BState α} {a : BAct}
    (hInv : BInvZ scripts s) (hstep : bstep sizes scripts s a = some s') :
    BInvZ scripts s' := by
  have hnan : ∀ u : ℚ, min99 (totalPercent u (totalQ sizes)) = none := by
    intro u
    rw [hT0]
    simp [totalPercent, min99]
  cases a with
  | tick t =>
    simp only [bstep] at hstep
    by_cases ht : s.time ≤ t
    · simp only [if_pos ht, Option.some.injEq] at hstep
      subst hstep
      exact ⟨hInv.emitZ, hInv.lastZ⟩
    · simp only [if_neg ht] at hstep
      exact absurd hstep (by simp)
  | timer =>
    simp only [bstep] at hstep
    cases hta : s.thr.timeoutAt with
    | none => rw [hta] at hstep; exact absurd hstep (by simp)
    | some tf =>
      rw [hta] at hstep
      by_cases ht : tf ≤ s.time
      · simp only [if_pos ht, Option.some.injEq] at hstep
        subst hstep
        cases hla : s.thr.lastArgs with
        | none =>
          have hfire : throttleTimerFire s.thr s.time =
              ((⟨s.time, none, none⟩ : Throttle (PEvent α)), none) := by
            unfold throttleTimerFire; rw [hla]
          rw [hfire]
          refine ⟨?_, ?_⟩
          · intro e he
            simp only [Option.toList, List.append_nil] at he
            exact hInv.emitZ e he
          · intro la hla'
            simp only at hla'
            exact absurd hla' (by simp)
        | some la =>
          have hfire : throttleTimerFire s.thr s.time =
              ((⟨s.time, some la, none⟩ : Throttle (PEvent α)), some la) := by
            unfold throttleTimerFire; rw [hla]
          rw [hfire]
          refine ⟨?_, ?_⟩
          · intro e he
            simp only [Option.toList, List.mem_append,
              List.mem_singleton] at he
            rcases he with he | he
            · exact hInv.emitZ e he
            · subst he
              exact hInv.lastZ e hla
          · intro la' hla'
            simp only at hla'
            injection hla' with h
            subst h
            exact hInv.lastZ la hla
      · simp only [if_neg ht] at hstep
        exact absurd hstep (by simp)
  | sched w =>
    simp only [bstep] at hstep
    cases hw : s.workers.get? w with
    | none => rw [hw] at hstep; exact absurd hstep (by simp)
    | some st =>
      rw [hw] at hstep
      cases st with
      | done => exact absurd hstep (by simp)
      | idle =>
        by_cases hcur : s.cursor < scripts.length
        · simp only [if_pos hcur, Option.some.injEq] at hstep
          subst hstep
          exact ⟨hInv.emitZ, hInv.lastZ⟩
        · simp only [if_neg hcur, Option.some.injEq] at hstep
          subst hstep
          exact ⟨hInv.emitZ, hInv.lastZ⟩
      | running i rest =>
        cases rest with
        | cons p rest' =>
          simp only [Option.some.injEq] at hstep
          subst hstep
          have hevn : (progressEv α sizes scripts s i p).percent = none :=
            hnan _
          exact invZ_of_call hInv (progressEv α sizes scripts s i p)
            (Or.inl hevn) rfl rfl
        | nil =>
          dsimp only at hstep
          cases hout : (scripts.getD i (defScript α)).outcome with
          | ok r =>
            rw [hout] at hstep
            simp only [Option.some.injEq] at hstep
            subst hstep
            have hevz : (settleEv sizes scripts s i r).percent = none ∨
                ((settleEv sizes scripts s i r).percent = some 100 ∧
                 (settleEv sizes scripts s i r).completed =
                   scripts.length) := by
              by_cases hc : s.completed + 1 = scripts.length
              · refine Or.inr ⟨?_, hc⟩
                show (if s.completed + 1 = scripts.length then some (100 : ℤ)
                  else min99 (totalPercent (settleUploaded sizes s i)
                    (totalQ sizes))) = some 100
                rw [if_pos hc]
              · refine Or.inl ?_
                show (if s.completed + 1 = scripts.length then some (100 : ℤ)
                  else min99 (totalPercent (settleUploaded sizes s i)
                    (totalQ sizes))) = none
                rw [if_neg hc]
                exact hnan _
            exact invZ_of_call hInv (settleEv sizes scripts s i r)
              hevz rfl rfl
          | error m =>
            rw [hout] at hstep
            simp only [Option.some.injEq] at hstep
            subst hstep
            exact ⟨hInv.emitZ, hInv.lastZ⟩

/-- C5 as amended: a zero-total-size batch does not error: JS division by
zero yields NaN, the run still completes and delivers its stream; but not
every event reports 100 — each emitted event carries either NaN percent
(the intermediate events) or percent exactly 100 with completedCount equal
to the task count, and the final forced event reports exactly 100. -/
theorem batchProgress_zero_total_stream {α : Type} (sizes : List Nat)
    (scripts : List (Script α)) (K : Nat) (acts : List BAct)
    (E : List (PEvent α)) (hT0 : totalQ sizes = 0)
    (hrun : runBatchEvents sizes scripts K acts = some E) :
    (∀ e ∈ E, e.percent = none ∨
      (e.percent = some 100 ∧ e.completed = scripts.length)) ∧
    (∃ e, E.getLast? = some e ∧ e.percent = some 100) := by
  unfold runBatchEvents at hrun
  cases hrunB : runB sizes scripts K acts with
  | none => rw [hrunB] at hrun; exact absurd hrun (by simp)
  | some s =>
    rw [hrunB] at hrun
    dsimp only at hrun
    by_cases hdone : s.workers.all BWorker.isDone
    · rw [if_pos hdone] at hrun
      injection hrun with hrun
      subst hrun
      have hInv : BInvZ scripts s :=
        runFold_inv sizes scripts _
          (fun _ _ _ h hs => bstep_invZ hT0 h hs) acts _ s
          ⟨by simp [initB], fun la h => by simp [initB, throttleInit] at h⟩
          hrunB
      constructor
      · intro e he
        unfold finishEvents at he
        rw [throttleFlush_snd] at he
        simp only [List.append_assoc, List.mem_append,
          List.mem_singleton] at he
        rcases he with he | he | he
        · exact hInv.emitZ e he
        · cases hla : s.thr.lastArgs with
          | none => rw [hla] at he; simp at he
          | some la =>
            rw [hla] at he
            simp only [Option.toList, List.mem_singleton] at he
            subst he
            exact hInv.lastZ e hla
        · subst he
          exact Or.inr ⟨rfl, rfl⟩
      · refine ⟨⟨scripts.length, scripts.length, some 100,
          scripts.length - 1,
          s.results.getD (s.results.length - 1) none⟩, ?_, rfl⟩
        unfold finishEvents
        exact getLast?_append_single _ _
    · rw [if_neg hdone] at hrun
      exact absurd hrun (by simp)

/-- Counterexample for C5: a batch of one zero-byte file (totalSize = 0)
whose task reports an intermediate 50 percent.  In the delivered stream the
first event carries NaN percent (Math.round(0 / 0 * 100) = NaN, modelled as
none) — so not every emitted progress event reports percent 100 in the
degenerate case. -/
theorem batchZeroTotal_nan_percent_cex :
    totalQ [0] = 0 ∧
    runBatchEvents [0] [⟨[50], Except.ok (1 : Nat)⟩] 1
        [.tick 200, .sched 0, .sched 0, .sched 0, .sched 0] =
      some [⟨0, 1, none, 0, none⟩,
            ⟨1, 1, some 100, 0, some (.val 1)⟩,
            ⟨1, 1, some 100, 0, some (.val 1)⟩] ∧
    (([⟨0, 1, none, 0, none⟩,
       ⟨1, 1, some 100, 0, some (.val 1)⟩,
       ⟨1, 1, some 100, 0, some (.val 1)⟩] : List (PEvent Nat)).getD 0
        ⟨0, 0, none, 0, none⟩).percent ≠ some 100 := by
  refine ⟨by decide, by decide, by decide⟩

/-- Witness for C5 (amended): the zero-total-size stream above satisfies
the amended property — every event is NaN or 100-with-all-completed, and
the final event reports 100. -/
theorem batchProgress_zero_total_stream_witness :
    (∀ e ∈ ([⟨0, 1, none, 0, none⟩,
        ⟨1, 1, some 100, 0, some (.val 1)⟩,
        ⟨1, 1, some 100, 0, some (.val 1)⟩] : List (PEvent Nat)),
      e.percent = none ∨ (e.percent = some 100 ∧ e.completed = 1)) ∧
    (∃ e, ([⟨0, 1, none, 0, none⟩,
        ⟨1, 1, some 100, 0, some (.val 1)⟩,
        ⟨1, 1, some 100, 0, some (.val 1)⟩] :
          List (PEvent Nat)).getLast? = some e ∧ e.percent = some 100) :=
  batchProgress_zero_total_stream [0] [⟨[50], Except.ok 1⟩] 1
    [.tick 200, .sched 0, .sched 0, .sched 0, .sched 0]
    [⟨0, 1, none, 0, none⟩,
     ⟨1, 1, some 100, 0, some (.val 1)⟩,
     ⟨1, 1, some 100, 0, some (.val 1)⟩]
    (by decide) (by decide)

/-- Counterexample for C6: a complete one-task batch run whose delivered
stream is three events, all with percent exactly 100 — the completion
call's immediate firing, the flush replay of the same stored args, and the
forced terminal callback.  The first event (index 0 of 3) is not the final
one yet reports percent 100, refuting that percent equals 100 only on the
final emitted event. -/
theorem batchPercent_100_not_only_final_cex :
    runBatchEvents [4] [⟨[], Except.ok (42 : Nat)⟩] 1
        [.tick 200, .sched 0, .sched 0, .sched 0] =
      some [⟨1, 1, some 100, 0, some (.val 42)⟩,
            ⟨1, 1, some 100, 0, some (.val 42)⟩,
            ⟨1, 1, some 100, 0, some (.val 42)⟩] ∧
    ([⟨1, 1, some 100, 0, some (.val 42)⟩,
      ⟨1, 1, some 100, 0, some (.val 42)⟩,
      ⟨1, 1, some 100, 0, some (.val 42)⟩] : List (PEvent Nat)).length = 3 ∧
    (([⟨1, 1, some 100, 0, some (.val 42)⟩,
       ⟨1, 1, some 100, 0, some (.val 42)⟩,
       ⟨1, 1, some 100, 0, some (.val 42)⟩] : List (PEvent Nat)).getD 0
        ⟨0, 0, none, 0, none⟩).percent = some 100 := by
  refine ⟨by decide, by decide, by decide⟩

/-- Witness for C6 (amended): the stream properties hold on the concrete
one-task run used in the counterexample. -/
theorem batchProgress_stream_properties_witness :
    List.Chain' (fun a b => pLe a.percent b.percent)
      ([⟨1, 1, some 100, 0, some (.val 42)⟩,
        ⟨1, 1, some 100, 0, some (.val 42)⟩,
        ⟨1, 1, some 100, 0, some (.val 42)⟩] : List (PEvent Nat)) ∧
    (∀ e ∈ ([⟨1, 1, some 100, 0, some (.val 42)⟩,
        ⟨1, 1, some 100, 0, some (.val 42)⟩,
        ⟨1, 1, some 100, 0, some (.val 42)⟩] : List (PEvent Nat)),
      ∃ z, e.percent = some z ∧ z ≤ 100) ∧
    (∀ e ∈ ([⟨1, 1, some 100, 0, some (.val 42)⟩,
        ⟨1, 1, some 100, 0, some (.val 42)⟩,
        ⟨1, 1, some 100, 0, some (.val 42)⟩] : List (PEvent Nat)),
      e.percent = some 100 → e.completed = 1) ∧
    (∀ e ∈ ([⟨1, 1, some 100, 0, some (.val 42)⟩,
        ⟨1, 1, some 100, 0, some (.val 42)⟩,
        ⟨1, 1, some 100, 0, some (.val 42)⟩] : List (PEvent Nat)),
      e.completed < 1 → ∃ z, e.percent = some z ∧ z ≤ 99) ∧
    (∃ e, ([⟨1, 1, some 100, 0, some (.val 42)⟩,
        ⟨1, 1, some 100, 0, some (.val 42)⟩,
        ⟨1, 1, some 100, 0, some (.val 42)⟩] :
          List (PEvent Nat)).getLast? = some e ∧
      e.percent = some 100 ∧ e.completed = 1) :=
  batchProgress_stream_properties [4] [⟨[], Except.ok 42⟩] 1
    [.tick 200, .sched 0, .sched 0, .sched 0]
    [⟨1, 1, some 100, 0, some (.val 42)⟩,
     ⟨1, 1, some 100, 0, some (.val 42)⟩,
     ⟨1, 1, some 100, 0, some (.val 42)⟩]
    (by decide) (by decide)
    (by
      intro sc hsc
      simp only [List.mem_singleton] at hsc
      subst hsc
      exact ⟨List.Pairwise.nil, by intro q hq; simp at hq⟩)
    (by decide)

end ImageHost
